import Mathlib

/-!
Verification of the FRI-based polynomial commitment scheme (lita-xyz/Plonky3 fork):
a shallow embedding of the FRI prover (`prover.rs`), the two-adic PCS batched
opening/verification (`two_adic_pcs.rs`), barycentric interpolation
(`interpolation/src/lib.rs`), and `PublicRow` (`uni-stark/src/public.rs`),
together with theorems settling the specification's claims about them.

Conventions of the embedding:
* machine integers are `Nat`; Rust panics (`assert!`, `unwrap`, `expect`,
  out-of-bounds indexing, overflowing subtraction, division by zero in a field)
  are modelled by `Option`, with `none` the panic;
* `debug_assert!` is modelled as an active check (debug-build semantics);
* external capabilities (challenger/transcript, Mmcs commitments, DFT) are
  parameters: records of total functions, matching their contracts;
* parallel fold/reduce pipelines are embedded by their sequential denotation
  (a left fold), which is the semantics the source relies on.

Source files `fri/src/config.rs`, `fri/src/fold_even_odd.rs` and
`fri/src/verifier.rs` are absent from the snapshot; definitions derived from
them are modelled from the specification and marked as such.
-/

/-! ### Basic utilities (p3_util) -/

/-- Reverse the low `len` bits of `x` (p3_util `reverse_bits_len`). -/
def reverseBitsLen (x : ℕ) : ℕ → ℕ
  | 0 => 0
  | n + 1 => reverseBitsLen (x >>> 1) n ||| ((x &&& 1) <<< n)

/-- Fueled base-2 logarithm (structurally recursive, so that concrete
instances evaluate inside the kernel). -/
def log2Fuel : ℕ → ℕ → ℕ
  | 0, _ => 0
  | fuel + 1, n => if 2 ≤ n then log2Fuel fuel (n / 2) + 1 else 0

/-- Base-2 logarithm, agreeing with `Nat.log2` (see `natLog2_eq_log2`). -/
def natLog2 (n : ℕ) : ℕ := log2Fuel n n

/-- Permute a list by bit-reversing indices (p3_util `reverse_slice_index_bits`);
meaningful when the length is a power of two. -/
def reverseSliceIndexBits {F : Type} [Inhabited F] (v : List F) : List F :=
  (List.range v.length).map (fun i => v.getD (reverseBitsLen i (natLog2 v.length)) default)

/-- Strict base-2 logarithm (p3_util `log2_strict_usize`): `none` models the
panic on zero or a non-power-of-two argument. -/
def log2Strict (n : ℕ) : Option ℕ :=
  if n = 0 then none else if 2 ^ natLog2 n = n then some (natLog2 n) else none

/-- Sequence a list of optional results, in order, stopping at the first `none`
(the denotation of a Rust iterator whose element computation can panic). -/
def listMapOpt {α β : Type} (f : α → Option β) : List α → Option (List β)
  | [] => some []
  | a :: l =>
    match f a, listMapOpt f l with
    | some b, some bs => some (b :: bs)
    | _, _ => none

/-! ### FRI configuration

The file `fri/src/config.rs` is absent from the snapshot. -/

/-- Modelled from the spec: `FriConfig` is the immutable configuration
`log_blowup` (rate inverse exponent), `log_final_poly_len`, `num_queries`,
`proof_of_work_bits` (the commitment-capability handle is a separate
parameter in this embedding). -/
structure FriConfigF where
  log_blowup : ℕ
  log_final_poly_len : ℕ
  num_queries : ℕ
  proof_of_work_bits : ℕ
  deriving Repr, DecidableEq

/-- Modelled from the spec: `blowup()` is the blowup factor, `2 ^ log_blowup`
(the ratio between committed domain size and polynomial domain size). -/
def FriConfigF.blowup (c : FriConfigF) : ℕ := 2 ^ c.log_blowup

/-- Modelled from the spec: `final_poly_len()` is `2 ^ log_final_poly_len`,
the claimed length bound of the fully-folded polynomial. -/
def FriConfigF.finalPolyLen (c : FriConfigF) : ℕ := 2 ^ c.log_final_poly_len

/-! ### Challenger capability (external collaborator, §6 of the spec) -/

/-- Transcript capability record: `observe(value)`, `sample`, `sample_bits(n)`,
and the proof-of-work grind/check, all total functions on an opaque state. -/
structure ChallengerCaps (F Cm Wit St : Type) where
  sampleExt : St → F × St
  observeCommit : Cm → St → St
  observeExt : F → St → St
  sampleBits : ℕ → St → ℕ × St
  grind : ℕ → St → Wit × St
  checkWitness : ℕ → Wit → St → Bool × St

/-! ### FRI commit phase (fri/src/prover.rs) -/

/-- Interpret a codeword as the rows of `RowMajorMatrix::new(folded, 2)`:
consecutive pairs. `none` models the panic when the length is odd. -/
def pairUp {F : Type} : List F → Option (List (F × F))
  | [] => some []
  | [_] => none
  | a :: b :: rest => (pairUp rest).map (fun ps => (a, b) :: ps)

/-- Modelled from the spec: the caller-supplied folding rule `g.fold_matrix`
(file `fri/src/fold_even_odd.rs` is absent) folds the codeword into half its
length, combining each committed width-2 row into one value using the sampled
challenge `beta` (even/odd combination consistent with the two-adic structure). -/
def fold_matrix {F : Type} [CommRing F] (beta : F) (pairs : List (F × F)) : List F :=
  pairs.map (fun p => p.1 + beta * p.2)

/-- Result of the commit phase: one commitment and one retained openable
matrix per fold round, plus the final polynomial's coefficients. -/
structure CommitPhaseResultE (F Cm : Type) where
  commits : List Cm
  data : List (List (F × F))
  final_poly : List F
  deriving Repr, DecidableEq

/-- The equal-height mixing step of the commit-phase loop
(`inputs_iter.next_if(|v| v.len() == folded.len())`): if the next input
codeword in the sorted list has the same length as the freshly folded one,
add it elementwise into the folded codeword. -/
def mergeNext {F : Type} [CommRing F] (folded2 : List F) (rest : List (List F)) :
    List F × List (List F) :=
  match rest with
  | v :: rs =>
    if v.length = folded2.length then (List.zipWith (· + ·) folded2 v, rs)
    else (folded2, v :: rs)
  | [] => (folded2, [])

/-- One iteration step of the `commit_phase` fold loop, written with explicit
fuel so that it is structurally recursive (the fuel is at least the codeword
length at entry, which the halving makes sufficient; running out models no
real behaviour and returns `none`).  Per round: pack the codeword in pairs,
commit (the commitment capability `commitFn`, with the pairs matrix retained
as openable prover data), observe the commitment, sample `beta`, fold, and
possibly absorb the next equal-length input elementwise. -/
def commitPhaseGo {F Cm Wit St : Type} [CommRing F]
    (cfg : FriConfigF) (caps : ChallengerCaps F Cm Wit St) (commitFn : List (F × F) → Cm) :
    ℕ → List F → List (List F) → St →
    Option (List Cm × List (List (F × F)) × List F × St)
  | 0, _, _, _ => none
  | fuel + 1, folded, rest, st =>
    if folded.length > cfg.blowup * cfg.finalPolyLen then
      match pairUp folded with
      | none => none
      | some pairs =>
        match commitPhaseGo cfg caps commitFn fuel
            (mergeNext (fold_matrix
              (caps.sampleExt (caps.observeCommit (commitFn pairs) st)).1 pairs) rest).1
            (mergeNext (fold_matrix
              (caps.sampleExt (caps.observeCommit (commitFn pairs) st)).1 pairs) rest).2
            (caps.sampleExt (caps.observeCommit (commitFn pairs) st)).2 with
        | none => none
        | some (cms, dats, fin, st') => some (commitFn pairs :: cms, pairs :: dats, fin, st')
    else some ([], [], folded, st)

/-- The commit phase (`commit_phase`, prover.rs lines 96-164): run the fold
loop starting from the first (longest) input, then bit-reverse, apply the
inverse DFT (`idft`, the external transform capability), check that all
coefficients beyond `final_poly_len` vanish (the `debug_assert!`, modelled as
an active check whose failure is `none`), and observe every coefficient. -/
def commit_phase {F Cm Wit St : Type} [CommRing F] [DecidableEq F]
    (cfg : FriConfigF) (caps : ChallengerCaps F Cm Wit St) (commitFn : List (F × F) → Cm)
    (idft : List F → List F) (inputs : List (List F)) (st : St) :
    Option (CommitPhaseResultE F Cm × St) :=
  match inputs with
  | [] => none
  | first :: rest =>
    match commitPhaseGo cfg caps commitFn (first.length + 1) first rest st with
    | none => none
    | some (cms, dats, folded, st) =>
      let finalPoly := idft (@reverseSliceIndexBits F ⟨0⟩ folded)
      if (finalPoly.drop (2 ^ cfg.log_final_poly_len)).all (fun x => decide (x = 0)) then
        let st := finalPoly.foldl (fun s x => caps.observeExt x s) st
        some (⟨cms, dats, finalPoly⟩, st)
      else none

/-- The `tuple_windows` descending-length check of `prove`. -/
def descByLen {F : Type} : List (List F) → Bool
  | a :: b :: rest => decide (b.length ≤ a.length) && descByLen (b :: rest)
  | _ => true

/-- The two input-validation assertions at the head of `prove`
(prover.rs lines 33-40): inputs non-empty and sorted in descending order
of length. -/
def proveAsserts {F : Type} (inputs : List (List F)) : Bool :=
  !inputs.isEmpty && descByLen inputs

/-- The validated prefix of `prove` (prover.rs lines 33-48): the two defensive
assertions, the strict logarithms of the extreme lengths, the minimum-height
assertion, then the commit phase.  The later query phase of `prove` is
embedded separately as `answer_query`. -/
def proveValidated {F Cm Wit St : Type} [CommRing F] [DecidableEq F]
    (cfg : FriConfigF) (caps : ChallengerCaps F Cm Wit St) (commitFn : List (F × F) → Cm)
    (idft : List F → List F) (inputs : List (List F)) (st : St) :
    Option (CommitPhaseResultE F Cm × St) :=
  if inputs.isEmpty then none
  else if !descByLen inputs then none
  else
    match log2Strict (inputs.headD []).length, log2Strict (inputs.getLastD []).length with
    | some _, some logMin =>
      if cfg.log_final_poly_len > 0 && !decide (logMin > cfg.log_final_poly_len + cfg.log_blowup)
      then none
      else commit_phase cfg caps commitFn idft inputs st
    | _, _ => none

/-! ### FRI query phase (fri/src/prover.rs, `answer_query`) -/

/-- One step of a query proof: the sibling value at a fold round together with
the round's opening proof (proof.rs `CommitPhaseProofStep`; the proof object is
opaque). -/
structure CommitPhaseProofStep (F Pf : Type) where
  sibling_value : F
  opening_proof : Pf
  deriving Repr, DecidableEq

/-- Per-round commitment data opened at a row: the model of `Mmcs::open_batch`
on a single committed matrix returns the list of opened rows (here exactly
one) together with an opening proof, modelled as the opened row index.
`none` is the out-of-bounds panic. -/
def open_batch {F : Type} (mat : List (List F)) (index : ℕ) : Option (List (List F) × ℕ) :=
  match mat[index]? with
  | none => none
  | some row => some ([row], index)

/-- The body of `answer_query`'s per-round closure, at the enumerated round
`p.1` with retained matrix `p.2`: derive the round's local index by shifting
the global index right by the round number, the sibling index by flipping its
lowest bit, the paired-row index by shifting once more; open that row; assert
exactly one row of width two; record the sibling's value and the proof. -/
def answerQueryStep {F : Type} [Inhabited F] (index : ℕ) (p : ℕ × List (List F)) :
    Option (CommitPhaseProofStep F ℕ) :=
  let index_i := index >>> p.1
  let index_i_sibling := index_i ^^^ 1
  let index_pair := index_i >>> 1
  match open_batch p.2 index_pair with
  | none => none
  | some (opened_rows, opening_proof) =>
    if opened_rows.length = 1 then
      let opened_row := opened_rows.getD 0 []
      if opened_row.length = 2 then
        some ⟨opened_row.getD (index_i_sibling % 2) default, opening_proof⟩
      else none
    else none

/-- The query phase answer (`answer_query`, prover.rs lines 166-195): one
`CommitPhaseProofStep` per fold round, produced by `answerQueryStep` over the
enumerated per-round retained commitment data. -/
def answer_query {F : Type} [Inhabited F]
    (commit_phase_commits : List (List (List F))) (index : ℕ) :
    Option (List (CommitPhaseProofStep F ℕ)) :=
  listMapOpt (answerQueryStep index) commit_phase_commits.enum

/-! ### PublicRow (uni-stark/src/public.rs) -/

/-- Public values viewed as a single-row matrix. -/
structure PublicRow (F : Type) where
  vals : List F

/-- The `Matrix::width` of `PublicRow`. -/
def PublicRow.width {F : Type} (pr : PublicRow F) : ℕ := pr.vals.length

/-- The `Matrix::height` of `PublicRow`: always `1`. -/
def PublicRow.height {F : Type} (_ : PublicRow F) : ℕ := 1

/-- The `Matrix::row` of `PublicRow`: the accessor asserts `_r = 1`
(`assert_eq!(_r, 1)`), so any other index panics (`none`). -/
def PublicRow.row {F : Type} (pr : PublicRow F) (r : ℕ) : Option (List F) :=
  if r = 1 then some pr.vals else none

/-! ### Concrete instances used by witnesses and counterexamples -/

/-- A concrete configuration: `log_blowup = 1`, `log_final_poly_len = 0`,
one query, no grinding. -/
def cfg17 : FriConfigF := ⟨1, 0, 1, 0⟩

/-- A concrete (degenerate) challenger over `ZMod 17` with unit state:
samples are `0`, the proof-of-work check accepts. -/
def caps17 : ChallengerCaps (ZMod 17) Unit Unit Unit where
  sampleExt := fun _ => (0, ())
  observeCommit := fun _ _ => ()
  observeExt := fun _ _ => ()
  sampleBits := fun _ _ => (0, ())
  grind := fun _ _ => ((), ())
  checkWitness := fun _ _ _ => (true, ())

/-- A concrete commitment function with opaque (unit) commitments. -/
def commitFn17 : List (ZMod 17 × ZMod 17) → Unit := fun _ => ()

/-- Multiplicative inverses in `ZMod 17` of the power-of-two lengths `≤ 16`,
by table (kernel-reducible, unlike the generic field inverse). -/
def invLen17 : ℕ → ZMod 17
  | 1 => 1
  | 2 => 9
  | 4 => 13
  | 8 => 15
  | 16 => 16
  | _ => 0

/-- Modelled from the spec: a concrete instance of the external transform
capability — the inverse DFT over `ZMod 17`, whose multiplicative group has
order `16` with `3` a generator, so `om = 3 ^ (16 / n)` generates the subgroup
of order `n` for `n ∣ 16`; `om ^ (n - 1)` is its inverse. -/
def idft17 (v : List (ZMod 17)) : List (ZMod 17) :=
  (List.range v.length).map (fun j =>
    invLen17 v.length *
      ((List.range v.length).map
        (fun i => v.getD i 0 *
          (((3 : ZMod 17) ^ (16 / v.length)) ^ (v.length - 1)) ^ (i * j))).sum)

/-! ### PowersReducer (fri/src/two_adic_pcs.rs lines 518-585)

The embedding is generic over the base field `F`, the extension `EF`
(a commutative `F`-algebra whose representation as `EF::D = D` base-field
limbs is the `F`-linear equivalence `e`, with `e` playing `as_base_slice` and
`e.symm` playing `from_base_fn`), and the SIMD packing width `W = Packing::WIDTH`
(a packed value is a length-`W` list with lanewise arithmetic). -/

/-- Rust `usize::next_multiple_of` (the argument `w` is a packing width,
always positive in the source). -/
def nextMultipleOf (n w : ℕ) : ℕ := if w = 0 then n else w * ((n + w - 1) / w)

/-- Split a list into `k` packed chunks of width `w`
(`PackedField::pack_slice`, plus the chunk part of `pack_slice_with_suffix`). -/
def packChunksGo {T : Type} (w : ℕ) : ℕ → List T → List (List T)
  | 0, _ => []
  | k + 1, xs => xs.take w :: packChunksGo w k (xs.drop w)

/-- `transpose_vec` (two_adic_pcs.rs lines 573-585): asserts the input is
non-empty, takes the first row's length, and drains one element per inner
iterator per output row; `none` models the panics. -/
def transpose_vec {T : Type} (v : List (List T)) : Option (List (List T)) :=
  match v with
  | [] => none
  | v0 :: _ => listMapOpt (fun i => listMapOpt (fun n => n[i]?) v) (List.range v0.length)

/-- `PowersReducer`: precomputed powers of the batching challenge and their
transposed packed base-field limb layout. -/
structure PowersReducer (F EF : Type) where
  powers : List EF
  transposed_packed : List (List (List F))
  deriving DecidableEq

/-- `PowersReducer::new`: powers `base ^ 0 .. base ^ (m-1)` for `m` the width
rounded up to a multiple of the packing width, and their limbs packed
(`pack_slice` asserts divisibility by the width) then transposed. -/
def PowersReducer.new {F EF : Type} [CommRing F] [CommRing EF] [Algebra F EF]
    (D W : ℕ) (e : EF ≃ₗ[F] (Fin D → F)) (base : EF) (max_width : ℕ) :
    Option (PowersReducer F EF) :=
  let m := nextMultipleOf max_width W
  let powers : List EF := (List.range m).map (fun i => base ^ i)
  if m % W ≠ 0 then none
  else
    match transpose_vec ((List.finRange D).map
        (fun d => packChunksGo W (m / W) (powers.map (fun a => e a d)))) with
    | none => none
    | some tp => some ⟨powers, tp⟩

/-- `PowersReducer::reduce_ext`: `Σ base^i * x_i` over extension-field inputs
(the `zip` truncates to the shorter list). -/
def PowersReducer.reduce_ext {F EF : Type} [CommRing EF]
    (r : PowersReducer F EF) (xs : List EF) : EF :=
  ((r.powers.zip xs).map (fun pr => pr.1 * pr.2)).sum

/-- `PowersReducer::reduce_base`: split the base-field input into packed
chunks and a suffix; multiply-accumulate each limb lanewise against the
transposed packed powers; recombine the limb sums through `from_base_fn`;
handle the suffix with scalar multiply-accumulate. -/
def PowersReducer.reduce_base {F EF : Type} [CommRing F] [CommRing EF] [Algebra F EF]
    (D W : ℕ) (e : EF ≃ₗ[F] (Fin D → F)) (r : PowersReducer F EF) (xs : List F) : EF :=
  let k := xs.length / W
  let xsPacked := packChunksGo W k xs
  let xsSfx := xs.drop (W * k)
  let sums : Fin D → List F :=
    (xsPacked.zip r.transposed_packed).foldl
      (fun sums xp d =>
        List.zipWith (· + ·) (sums d) (List.zipWith (· * ·) xp.1 (xp.2.getD d.1 [])))
      (fun _ => List.replicate W 0)
  let packedSum : EF := e.symm (fun d => (sums d).sum)
  let sfxSum : EF := ((xsSfx.zip (r.powers.drop (W * k))).map (fun pr => pr.1 • pr.2)).sum
  packedSum + sfxSum

/-- The limb decomposition of the concrete two-limb `ZMod 17`-algebra
`ZMod 17 × ZMod 17` (componentwise operations), used to instantiate the
`PowersReducer` theorems: `as_base_slice` lists the two components. -/
def e17 : (ZMod 17 × ZMod 17) ≃ₗ[ZMod 17] (Fin 2 → ZMod 17) where
  toFun := fun p d => if d = 0 then p.1 else p.2
  map_add' := by
    intro p q
    funext d
    by_cases hd : d = 0 <;> simp [hd]
  map_smul' := by
    intro c p
    funext d
    by_cases hd : d = 0 <;> simp [hd]
  invFun := fun f => (f 0, f 1)
  left_inv := by
    intro p
    simp
  right_inv := by
    intro f
    funext d
    fin_cases d <;> simp

/-! ### Reduced openings: the two_adic_pcs accumulation (open_multi_batches
lines 317-356 / verify_multi_batches lines 406-459)

Fixing one height bucket and one domain-row position, the `(matrix, point)`
pairs processed at that height are abstracted as a list of events carrying
the matrix row `p_i(X)` at that position, the claimed values `ys`, the
opening point `z`, and the height/index data from which the verifier derives
the domain point `X`. -/

/-- One `(matrix, opening point)` event at a fixed height bucket and fixed
domain-row position. -/
structure MatPointEvent (F EF : Type) where
  row : List F
  ys : List EF
  z : EF
  logHeight : ℕ
  reducedIndex : ℕ
  deriving DecidableEq

/-- The domain point at which the verifier evaluates: the coset point at the
bit-reversed position of the (height-reduced) query index,
`x = generator * two_adic_generator(log_height)^rev_reduced_index`
(two_adic_pcs.rs lines 441-445); `tag` is the external two-adic-generator
capability. -/
def eventX {F EF : Type} [CommRing F] (gen : F) (tag : ℕ → F) (ev : MatPointEvent F EF) : F :=
  gen * (tag ev.logHeight) ^ (reverseBitsLen ev.reducedIndex ev.logHeight)

/-- The prover-side accumulation of `open_multi_batches` at one height bucket
and one row: for each `(matrix, point)` event, in order,
`reduced += inv_denom * alpha^num_reduced * (reduce_base(row) - reduce_ext(ys))`
with `num_reduced` advanced by the matrix width (the batch-inverted
denominator `1/(X - z)` is the pointwise field inverse). -/
def proverReducedOpeningRow {F EF : Type} [CommRing F] [Field EF] [Algebra F EF]
    (D W : ℕ) (e : EF ≃ₗ[F] (Fin D → F)) (red : PowersReducer F EF) (alpha : EF)
    (gen : F) (tag : ℕ → F) (events : List (MatPointEvent F EF)) : EF :=
  (events.foldl (fun st ev =>
    (st.1 + (algebraMap F EF (eventX gen tag ev) - ev.z)⁻¹ * alpha ^ st.2
        * (red.reduce_base D W e ev.row - red.reduce_ext ev.ys),
     st.2 + ev.row.length)) ((0 : EF), (0 : ℕ))).1

/-- The verifier-side recomputation of `verify_multi_batches` at one height
bucket: for each event, for each column,
`quotient = (-p_at_z + p_at_x) / (-z + x); ro += alpha_pow * quotient;
alpha_pow *= alpha` — the `alpha` powers running consecutively across
matrices and points. -/
def verifierReducedOpeningRow {F EF : Type} [CommRing F] [Field EF] [Algebra F EF]
    (alpha : EF) (gen : F) (tag : ℕ → F) (events : List (MatPointEvent F EF)) : EF :=
  (events.foldl (fun st ev =>
    (ev.row.zip ev.ys).foldl (fun st2 pq =>
      (st2.1 + st2.2 * ((-pq.2 + algebraMap F EF pq.1)
          / (-ev.z + algebraMap F EF (eventX gen tag ev))),
       st2.2 * alpha)) st) ((0 : EF), (1 : EF))).1

/-- The per-event flattening into `(p_i(X), y_i, 1/(X - z))` triples, in
matrix-column order. -/
def flattenEvents {F EF : Type} [CommRing F] [Field EF] [Algebra F EF]
    (gen : F) (tag : ℕ → F) (events : List (MatPointEvent F EF)) : List (F × EF × EF) :=
  events.flatMap (fun ev => (List.range ev.row.length).map
    (fun i => (ev.row.getD i 0, ev.ys.getD i 0,
      (algebraMap F EF (eventX gen tag ev) - ev.z)⁻¹)))

/-- The specification's linear combination
`Σ_i α^i · (p_i(X) − y_i) / (X − z)` over the flattened column list, with
the `α` powers consecutive across matrices. -/
def specReducedOpeningLC {F EF : Type} [CommRing F] [CommRing EF] [Algebra F EF]
    (alpha : EF) (l : List (F × EF × EF)) : EF :=
  ∑ j ∈ Finset.range l.length,
    alpha ^ j * (algebraMap F EF (l.getD j (0, 0, 0)).1 - (l.getD j (0, 0, 0)).2.1)
      * (l.getD j (0, 0, 0)).2.2

/-- The limb decomposition of `ZMod 17` viewed as the (one-limb) trivial
extension of itself, used to instantiate the reduced-opening theorems. -/
def eZ1 : ZMod 17 ≃ₗ[ZMod 17] (Fin 1 → ZMod 17) where
  toFun := fun x _ => x
  map_add' := by intro x y; funext d; simp
  map_smul' := by intro c x; funext d; simp
  invFun := fun f => f 0
  left_inv := by intro x; simp
  right_inv := by
    intro f
    funext d
    fin_cases d
    simp

/-- `17` is prime, so `ZMod 17` is a field (used to instantiate the
verifier-side theorems, which divide by `X - z`). -/
instance fact_prime_17 : Fact (Nat.Prime 17) := ⟨by norm_num⟩

/-! ### Barycentric coset interpolation (interpolation/src/lib.rs lines 31-79)

`interpolate_coset::<F, EF, Mat>(coset_evals, shift, point)` evaluates, at
`point : EF`, the batch of polynomials whose evaluations over the coset
`shift * <g>` of the canonical power-of-two subgroup are the columns of
`coset_evals`.  The embedding models the matrix as its list of rows, the
panic of `log2_strict_usize` on a non-power-of-two height as `none`, and
`F::two_adic_generator(log_height)` as an external field capability
`tag : ℕ → F` (the theorems hypothesise exactly the defining property of
that constant: order exactly `2 ^ log_height`).  `batch_multiplicative_inverse`
is modelled pointwise by `⁻¹` (on nonzero inputs the two agree; the
denominators are nonzero under the theorems' hypotheses), and the
`fold_chunks(64).reduce` combination of the scaled rows is modelled by its
denotation, a left fold of `sum_vecs` starting from the zero vector. -/

/-- The `sum_vecs` closure of `interpolate_coset`: elementwise sum of the
first `width` entries of two rows. -/
def sum_vecs {EF : Type} [Field EF] (width : ℕ) (x y : List EF) : List EF :=
  (List.range width).map (fun i => x.getD i 0 + y.getD i 0)

/-- `interpolate_coset` (interpolation/src/lib.rs lines 31-79): weight row `i`
by `g^i / (point − shift·g^i)`, sum the weighted rows, and scale by
`zerofier(point) · (height · shift^(height−1))⁻¹`. -/
def interpolate_coset {F EF : Type} [Field F] [Field EF] [Algebra F EF]
    (tag : ℕ → F) (coset_evals : List (List F)) (shift : F) (point : EF) :
    Option (List EF) :=
  match log2Strict coset_evals.length with
  | none => none
  | some log_height =>
    let width := (coset_evals.headD []).length
    let height := coset_evals.length
    let g := tag log_height
    let diff_invs : List EF :=
      ((List.range height).map (fun i => point - algebraMap F EF (shift * g ^ i))).map
        (fun d => d⁻¹)
    let scaled : List (List EF) := (List.range height).map (fun i =>
      (coset_evals.getD i []).map
        (fun y => diff_invs.getD i 0 * algebraMap F EF (g ^ i) * algebraMap F EF y))
    let total : List EF := scaled.foldl (sum_vecs width) (List.replicate width 0)
    let zerofier : EF := point ^ 2 ^ log_height - algebraMap F EF shift ^ 2 ^ log_height
    let denominator : F := (height : F) * shift ^ (height - 1)
    some (total.map (fun y => zerofier * algebraMap F EF denominator⁻¹ * y))

/-- `12289 = 3·2^12 + 1` is prime, so `ZMod 12289` is a two-adic prime field
(with elements of order `2^3`), over which the interpolation round-trip for
`x^2 + 2x + 3` at `x = 100` is instantiated concretely. -/
instance fact_prime_12289 : Fact (Nat.Prime 12289) := ⟨by norm_num⟩

/-! ### `verify_multi_batches` (fri/src/two_adic_pcs.rs lines 389-470)

The verifier replays the transcript (sample `alpha`, replay the FRI shape and
challenges), recomputes the reduced openings per query from the proof's
`query_openings`, and hands them to FRI challenge verification.  Machinery
whose source is absent from this snapshot (fri/src/verifier.rs:
`verify_shape_and_sample_challenges`, `verify_challenges`) and the input-MMCS
`verify_batch` are external collaborators, modelled as total capabilities
returning `Except`.  The reduced-opening recomputation itself
(lines 406-459) is embedded from the source; `Option` models its panics:
`.max().expect("Empty batch?")` on an empty dimensions batch,
`log2_strict_usize` on a non-power-of-two height, debug-build underflow of
`log_global_max_height - log_height`, field division by zero in `quotient`,
and the out-of-bounds array accesses `ro[log_height]` / `alpha_pow[log_height]`
when `log_height ≥ 32`. -/

/-- `p3_matrix::Dimensions`. -/
structure DimensionsS where
  width : ℕ
  height : ℕ
  deriving Repr, DecidableEq

/-- `BatchOpening` (two_adic_pcs.rs lines 371-374): the opened rows of one
input batch at one query index, and the opening proof (opaque). -/
structure BatchOpeningE (F CmPf : Type) where
  opened_values : List (List F)
  opening_proof : CmPf
  deriving Repr, DecidableEq

/-- `FriProof` (fri/src/proof.rs): commitments of the commit phase, one query
proof per query, the (constant) final polynomial and the proof-of-work
witness. -/
structure FriProofE (EF Cm Pf Wit : Type) where
  commit_phase_commits : List Cm
  query_proofs : List (List (CommitPhaseProofStep EF Pf))
  final_poly : EF
  pow_witness : Wit
  deriving Repr, DecidableEq

/-- `TwoAdicFriPcsProof`: the FRI proof plus the per-query input-batch
openings. -/
structure TwoAdicFriPcsProofE (F EF Cm Pf CmPf Wit : Type) where
  fri_proof : FriProofE EF Cm Pf Wit
  query_openings : List (List (BatchOpeningE F CmPf))
  deriving Repr, DecidableEq

/-- `FriChallenges`: the sampled query indices and fold challenges recovered
by replaying the transcript. -/
structure FriChallengesE (EF : Type) where
  query_indices : List ℕ
  betas : List EF
  deriving Repr, DecidableEq

/-- `VerificationError` (two_adic_pcs.rs lines 86-89): an input-MMCS failure
or a FRI failure, both ordinary typed results. -/
inductive VerificationErrorE (EMmcs EFri : Type) where
  | inputMmcsError (e : EMmcs)
  | friError (e : EFri)
  deriving Repr, DecidableEq

/-- The external collaborators of `verify_multi_batches`: the challenger's
`sample`, the transcript replay `verify_shape_and_sample_challenges` and the
final `verify_challenges` (fri/src/verifier.rs, absent from this snapshot;
the spec types them as total functions into `Result`), and the input MMCS
`verify_batch`. -/
structure PcsVerifierCaps (F EF Cm Pf CmPf Wit St EMmcs EFri : Type) where
  sampleAlpha : St → EF × St
  verifyShape : FriProofE EF Cm Pf Wit → St → Except EFri (FriChallengesE EF × St)
  verifyBatch : Cm → List DimensionsS → ℕ → List (List F) → CmPf → Except EMmcs Unit
  verifyChallenges : FriProofE EF Cm Pf Wit → FriChallengesE EF → List (Fin 32 → EF) →
    Except EFri Unit

/-- `izip!` over four vectors: truncate to the shortest. -/
def zip4 {α β γ δ : Type} : List α → List β → List γ → List δ → List (α × β × γ × δ)
  | a :: as, b :: bs, c :: cs, d :: ds => (a, b, c, d) :: zip4 as bs cs ds
  | _, _, _, _ => []

/-- The innermost loop of the reduced-opening recomputation (two_adic_pcs.rs
lines 448-452): for each polynomial's pair `(p_at_x, p_at_z)`, accumulate
`alpha_pow[log_height] * (-p_at_z + p_at_x) / (-z + x)` into `ro[log_height]`
and advance `alpha_pow[log_height]`.  `none` models the division-by-zero panic
of `Field::inverse` and the array panic when `log_height ≥ 32`. -/
def roPolyLoop {F EF : Type} [Field F] [Field EF] [Algebra F EF] [DecidableEq EF]
    (alpha : EF) (x : F) (log_height : ℕ) (z : EF) :
    List (F × EF) → (Fin 32 → EF) × (Fin 32 → EF) → Option ((Fin 32 → EF) × (Fin 32 → EF))
  | [], st => some st
  | (p_at_x, p_at_z) :: rest, st =>
    if -z + algebraMap F EF x = 0 then none
    else
      let quotient := (-p_at_z + algebraMap F EF p_at_x) / (-z + algebraMap F EF x)
      if h32 : log_height < 32 then
        let lh : Fin 32 := ⟨log_height, h32⟩
        roPolyLoop alpha x log_height z rest
          (Function.update st.1 lh (st.1 lh + st.2 lh * quotient),
           Function.update st.2 lh (st.2 lh * alpha))
      else none

/-- The per-point loop (two_adic_pcs.rs line 447): for each opening point `z`
of the matrix, run the polynomial loop over `zip(mat_opening, ps_at_z)`. -/
def roPointLoop {F EF : Type} [Field F] [Field EF] [Algebra F EF] [DecidableEq EF]
    (alpha : EF) (x : F) (log_height : ℕ) (mat_opening : List F) :
    List (EF × List EF) → (Fin 32 → EF) × (Fin 32 → EF) →
      Option ((Fin 32 → EF) × (Fin 32 → EF))
  | [], st => some st
  | (z, ps_at_z) :: rest, st =>
    match roPolyLoop alpha x log_height z (mat_opening.zip ps_at_z) st with
    | none => none
    | some st' => roPointLoop alpha x log_height mat_opening rest st'

/-- The per-matrix loop (two_adic_pcs.rs lines 432-454): recover the matrix's
`log_height` (`log2_strict_usize` panic modelled as `none`), check the
debug-build subtraction `log_global_max_height - log_height`, compute the
coset point `x = generator * two_adic_generator(log_height)^rev_reduced_index`,
and run the point loop. -/
def roMatLoop {F EF : Type} [Field F] [Field EF] [Algebra F EF] [DecidableEq EF]
    (log_blowup : ℕ) (gen : F) (tag : ℕ → F) (alpha : EF)
    (log_global_max_height index : ℕ) :
    List (List F × DimensionsS × List EF × List (List EF)) →
      (Fin 32 → EF) × (Fin 32 → EF) → Option ((Fin 32 → EF) × (Fin 32 → EF))
  | [], st => some st
  | (mat_opening, mat_dims, mat_points, mat_at_z) :: rest, st =>
    match log2Strict mat_dims.height with
    | none => none
    | some l =>
      let log_height := l + log_blowup
      if log_height ≤ log_global_max_height then
        let bits_reduced := log_global_max_height - log_height
        let rev_reduced_index := reverseBitsLen (index >>> bits_reduced) log_height
        let x := gen * tag log_height ^ rev_reduced_index
        match roPointLoop alpha x log_height mat_opening (mat_points.zip mat_at_z) st with
        | none => none
        | some st' =>
          roMatLoop log_blowup gen tag alpha log_global_max_height index rest st'
      else none

/-- The per-batch loop (two_adic_pcs.rs lines 413-455): take the batch's
maximum blown-up height (`.expect("Empty batch?")` modelled as `none`), derive
the reduced index, verify the batch opening against the commitment (typed
`Except` via the capability), then run the matrix loop over
`izip!(opened_values, batch_dims, batch_points, batch_at_z)`. -/
def roBatchLoop {F EF Cm CmPf EMmcs : Type} [Field F] [Field EF] [Algebra F EF]
    [DecidableEq EF]
    (log_blowup : ℕ) (gen : F) (tag : ℕ → F)
    (verifyBatch : Cm → List DimensionsS → ℕ → List (List F) → CmPf → Except EMmcs Unit)
    (alpha : EF) (log_global_max_height index : ℕ) :
    List (BatchOpeningE F CmPf × List DimensionsS × (Cm × List (List EF))
        × List (List (List EF))) →
      (Fin 32 → EF) × (Fin 32 → EF) →
      Option (Except EMmcs ((Fin 32 → EF) × (Fin 32 → EF)))
  | [], st => some (Except.ok st)
  | (batch_opening, batch_dims, commit_points, batch_at_z) :: rest, st =>
    match (batch_dims.map (fun d => d.height <<< log_blowup)).max? with
    | none => none
    | some batch_max_height =>
      match log2Strict batch_max_height with
      | none => none
      | some log_batch_max_height =>
        if log_batch_max_height ≤ log_global_max_height then
          let reduced_index := index >>> (log_global_max_height - log_batch_max_height)
          match verifyBatch commit_points.1 batch_dims reduced_index
              batch_opening.opened_values batch_opening.opening_proof with
          | Except.error e => some (Except.error e)
          | Except.ok _ =>
            match roMatLoop log_blowup gen tag alpha log_global_max_height index
                (zip4 batch_opening.opened_values batch_dims commit_points.2 batch_at_z)
                st with
            | none => none
            | some st' =>
              roBatchLoop log_blowup gen tag verifyBatch alpha log_global_max_height
                index rest st'
        else none

/-- The per-query map (two_adic_pcs.rs lines 406-459): for each
`(query_opening, index)` pair, fold the batches starting from
`ro = [0; 32]`, `alpha_pow = [1; 32]`, collecting the reduced openings and
stopping at the first typed error (the `collect::<Result<..>>`). -/
def roQueryLoop {F EF Cm CmPf EMmcs : Type} [Field F] [Field EF] [Algebra F EF]
    [DecidableEq EF]
    (log_blowup : ℕ) (gen : F) (tag : ℕ → F)
    (verifyBatch : Cm → List DimensionsS → ℕ → List (List F) → CmPf → Except EMmcs Unit)
    (alpha : EF) (log_global_max_height : ℕ)
    (dims : List (List DimensionsS))
    (commits_and_points : List (Cm × List (List EF)))
    (values : List (List (List (List EF)))) :
    List (List (BatchOpeningE F CmPf) × ℕ) → Option (Except EMmcs (List (Fin 32 → EF)))
  | [] => some (Except.ok [])
  | (query_opening, index) :: rest =>
    match roBatchLoop log_blowup gen tag verifyBatch alpha log_global_max_height index
        (zip4 query_opening dims commits_and_points values)
        (fun _ => 0, fun _ => 1) with
    | none => none
    | some (Except.error e) => some (Except.error e)
    | some (Except.ok (ro, _)) =>
      match roQueryLoop log_blowup gen tag verifyBatch alpha log_global_max_height
          dims commits_and_points values rest with
      | none => none
      | some (Except.error e) => some (Except.error e)
      | some (Except.ok ros) => some (Except.ok (ro :: ros))

/-- `verify_multi_batches` (two_adic_pcs.rs lines 389-470): sample `alpha`,
replay the FRI transcript, recompute the reduced openings per query, and run
FRI challenge verification.  The outer value is `none` exactly when the body
panics; otherwise it is the typed `Result`. -/
def verify_multi_batches {F EF Cm Pf CmPf Wit St EMmcs EFri : Type}
    [Field F] [Field EF] [Algebra F EF] [DecidableEq EF]
    (log_blowup : ℕ) (gen : F) (tag : ℕ → F)
    (caps : PcsVerifierCaps F EF Cm Pf CmPf Wit St EMmcs EFri)
    (commits_and_points : List (Cm × List (List EF)))
    (dims : List (List DimensionsS))
    (values : List (List (List (List EF))))
    (proof : TwoAdicFriPcsProofE F EF Cm Pf CmPf Wit)
    (challenger : St) :
    Option (Except (VerificationErrorE EMmcs EFri) Unit) :=
  let s1 := caps.sampleAlpha challenger
  match caps.verifyShape proof.fri_proof s1.2 with
  | Except.error e => some (Except.error (VerificationErrorE.friError e))
  | Except.ok (fri_challenges, _) =>
    let log_global_max_height := proof.fri_proof.commit_phase_commits.length + log_blowup
    match roQueryLoop log_blowup gen tag caps.verifyBatch s1.1 log_global_max_height
        dims commits_and_points values
        (proof.query_openings.zip fri_challenges.query_indices) with
    | none => none
    | some (Except.error e) => some (Except.error (VerificationErrorE.inputMmcsError e))
    | some (Except.ok reduced_openings) =>
      match caps.verifyChallenges proof.fri_proof fri_challenges reduced_openings with
      | Except.error e => some (Except.error (VerificationErrorE.friError e))
      | Except.ok _ => some (Except.ok ())

/-- Trivial verifier capabilities over `ZMod 17` with all collaborator types
`Unit`: the challenger samples `0`, the transcript replay accepts and returns
one query at index `0` (with no betas), batch verification accepts, and
challenge verification accepts. -/
def pcsCaps17 : PcsVerifierCaps (ZMod 17) (ZMod 17) Unit Unit Unit Unit Unit Unit Unit where
  sampleAlpha := fun st => (0, st)
  verifyShape := fun _ st => Except.ok (⟨[0], []⟩, st)
  verifyBatch := fun _ _ _ _ _ => Except.ok ()
  verifyChallenges := fun _ _ _ => Except.ok ()

/-! ## Theorems -/

theorem idft17_length : ∀ v : List (ZMod 17), (idft17 v).length = v.length := by
  intro v
  simp [idft17]

theorem reverseSliceIndexBits_length {F : Type} [Inhabited F] (v : List F) :
    (reverseSliceIndexBits v).length = v.length := by
  simp [reverseSliceIndexBits]

theorem pairUp_length {F : Type} :
    ∀ (l : List F) (ps : List (F × F)), pairUp l = some ps → 2 * ps.length = l.length := by
  intro l
  induction l using pairUp.induct with
  | case1 => intro ps h; simp [pairUp] at h; subst h; rfl
  | case2 a => intro ps h; simp [pairUp] at h
  | case3 a b rest ih =>
    intro ps h
    simp only [pairUp, Option.map_eq_some'] at h
    obtain ⟨ps', hps', rfl⟩ := h
    have := ih ps' hps'
    simp [List.length_cons]
    omega

theorem fold_matrix_length {F : Type} [CommRing F] (beta : F) (pairs : List (F × F)) :
    (fold_matrix beta pairs).length = pairs.length := by
  simp [fold_matrix]

theorem descByLen_iff_chain {F : Type} :
    ∀ inputs : List (List F),
      descByLen inputs = true ↔ List.Chain' (fun l r => r.length ≤ l.length) inputs := by
  intro inputs
  induction inputs with
  | nil => simp [descByLen]
  | cons a tl ih =>
    cases tl with
    | nil => simp [descByLen]
    | cons b rest =>
      rw [List.chain'_cons, ← ih]
      simp [descByLen, Bool.and_eq_true, and_comm]

/-- C10: `PublicRow` reports height `1`, yet its `row` accessor asserts that
the requested index equals `1`; hence for every `PublicRow` value, `row 0` —
the only index consistent with the reported height — panics and never
returns. -/
theorem publicRow_height_one_but_row_zero_panics {F : Type} :
    ∀ pr : PublicRow F, pr.height = 1 ∧ pr.row 0 = none := by
  intro pr
  exact ⟨rfl, rfl⟩

/-- C9: the FRI prover's validated entry treats an empty input list, or a list
not sorted in descending order of length, as a caller-contract violation — a
fatal assertion (`none`), hit before any transcript or commitment work — and
for every non-empty descending-sorted input those assertions pass. -/
theorem prove_asserts_gate {F Cm Wit St : Type} [CommRing F] [DecidableEq F]
    (cfg : FriConfigF) (caps : ChallengerCaps F Cm Wit St)
    (commitFn : List (F × F) → Cm) (idft : List F → List F)
    (inputs : List (List F)) (st : St) :
    ((inputs = [] ∨ ¬ List.Chain' (fun l r => r.length ≤ l.length) inputs) →
      proveValidated cfg caps commitFn idft inputs st = none)
    ∧ (inputs ≠ [] ∧ List.Chain' (fun l r => r.length ≤ l.length) inputs →
      proveAsserts inputs = true) := by
  constructor
  · rintro (rfl | hnot)
    · simp [proveValidated]
    · have hd : descByLen inputs = false := by
        cases h : descByLen inputs
        · rfl
        · exact absurd ((descByLen_iff_chain inputs).mp h) hnot
      unfold proveValidated
      rcases inputs with _ | ⟨a, tl⟩
      · simp
      · simp [hd]
  · rintro ⟨hne, hchain⟩
    have hd : descByLen inputs = true := (descByLen_iff_chain inputs).mpr hchain
    unfold proveAsserts
    rcases inputs with _ | ⟨a, tl⟩
    · exact absurd rfl hne
    · simp [hd]

/-- Witness for C9 at concrete inputs: the empty list is rejected and a
sorted non-empty list passes the assertions. -/
theorem prove_asserts_gate_witness :
    proveValidated cfg17 caps17 commitFn17 idft17 ([] : List (List (ZMod 17))) () = none
    ∧ proveAsserts [[(1 : ZMod 17), 2], [3]] = true :=
  ⟨(prove_asserts_gate cfg17 caps17 commitFn17 idft17 [] ()).1 (Or.inl rfl),
   (prove_asserts_gate cfg17 caps17 commitFn17 idft17 [[(1 : ZMod 17), 2], [3]] ()).2
     ⟨by decide, by rw [List.chain'_pair]; decide⟩⟩

theorem answerQueryStep_shift {F : Type} [Inhabited F] (index k : ℕ) (mat : List (List F)) :
    answerQueryStep index (k + 1, mat) = answerQueryStep (index >>> 1) (k, mat) := by
  unfold answerQueryStep
  have h : index >>> (k + 1) = (index >>> 1) >>> k := by
    rw [Nat.add_comm, Nat.shiftRight_add]
  simp only [h]

theorem listMapOpt_answerQueryStep_enumFrom {F : Type} [Inhabited F] :
    ∀ (l : List (List (List F))) (index k : ℕ),
      listMapOpt (answerQueryStep index) (l.enumFrom (k + 1))
        = listMapOpt (answerQueryStep (index >>> 1)) (l.enumFrom k) := by
  intro l
  induction l with
  | nil => intro index k; rfl
  | cons m ms ih =>
    intro index k
    simp only [List.enumFrom, listMapOpt, answerQueryStep_shift, ih index (k + 1)]

/-- C5: for every query index and fold round `i`, the prover's `answer_query`
derives the round-`i` local index as the query index shifted right by `i`, the
sibling index as that local index with lowest bit flipped, and the paired-row
index as the local index shifted right once more; it opens that paired row
from round `i`'s retained data, asserts exactly one row of width two, and
records the sibling's value with the opening proof — one step per fold
round. -/
theorem answer_query_spec {F : Type} [Inhabited F] :
    ∀ (mats : List (List (List F))) (index : ℕ),
      (∀ mat ∈ mats, ∀ row ∈ mat, row.length = 2) →
      (∀ i < mats.length, (index >>> i) >>> 1 < (mats.getD i []).length) →
      ∃ steps, answer_query mats index = some steps ∧ steps.length = mats.length ∧
        ∀ i mat row, mats[i]? = some mat → mat[(index >>> i) >>> 1]? = some row →
          steps[i]? = some ⟨row.getD (((index >>> i) ^^^ 1) % 2) default,
                            (index >>> i) >>> 1⟩ := by
  intro mats
  induction mats with
  | nil =>
    intro index _ _
    exact ⟨[], rfl, rfl, by intro i mat row h; simp at h⟩
  | cons m ms ih =>
    intro index hw hb
    have hb0 : (index >>> 0) >>> 1 < m.length := by
      have := hb 0 (by simp)
      simpa using this
    obtain ⟨row0, hrow0⟩ : ∃ r, m[(index >>> 0) >>> 1]? = some r :=
      ⟨m.get ⟨(index >>> 0) >>> 1, hb0⟩, List.getElem?_eq_getElem hb0⟩
    have hrow0len : row0.length = 2 := by
      refine hw m (by simp) row0 ?_
      exact List.getElem?_mem hrow0
    have hstep0 : answerQueryStep index (0, m)
        = some ⟨row0.getD (((index >>> 0) ^^^ 1) % 2) default, (index >>> 0) >>> 1⟩ := by
      have hrow0s := hrow0
      simp only [Nat.shiftRight_zero] at hrow0s
      simp [answerQueryStep, open_batch, hrow0s, hrow0len]
    obtain ⟨steps', hsteps', hlen', hspec'⟩ :=
      ih (index >>> 1)
        (fun mat hm row hr => hw mat (List.mem_cons_of_mem _ hm) row hr)
        (fun i hi => by
          have h := hb (i + 1) (by simpa using Nat.succ_lt_succ hi)
          have hsh : index >>> (i + 1) = (index >>> 1) >>> i := by
            rw [Nat.add_comm, Nat.shiftRight_add]
          rw [hsh] at h
          simpa using h)
    refine ⟨⟨row0.getD (((index >>> 0) ^^^ 1) % 2) default, (index >>> 0) >>> 1⟩ :: steps',
      ?_, by simpa using hlen', ?_⟩
    · unfold answer_query
      have henum : (m :: ms).enum = (0, m) :: ms.enumFrom 1 := by
        simp [List.enum]
      rw [henum]
      show listMapOpt (answerQueryStep index) ((0, m) :: ms.enumFrom 1) = _
      simp only [listMapOpt, hstep0]
      rw [show (1 : ℕ) = 0 + 1 from rfl, listMapOpt_answerQueryStep_enumFrom]
      unfold answer_query at hsteps'
      rw [show ms.enumFrom 0 = ms.enum from rfl, hsteps']
    · intro i mat row hm hr
      match i with
      | 0 =>
        simp only [List.getElem?_cons_zero, Option.some.injEq] at hm
        subst hm
        rw [hrow0] at hr
        cases hr
        simp
      | i + 1 =>
        simp only [List.getElem?_cons_succ] at hm ⊢
        have hsh : index >>> (i + 1) = (index >>> 1) >>> i := by
          rw [Nat.add_comm, Nat.shiftRight_add]
        rw [hsh] at hr ⊢
        exact hspec' i mat row hm hr

/-- Witness for C5 at a concrete two-round instance and query index `3`. -/
theorem answer_query_spec_witness :
    ((∀ mat ∈ [[[(1 : ZMod 17), 2], [3, 4]], [[5, 6]]], ∀ row ∈ mat, row.length = 2)
      ∧ (∀ i < ([[[(1 : ZMod 17), 2], [3, 4]], [[5, 6]]] : List (List (List (ZMod 17)))).length,
          ((3 : ℕ) >>> i) >>> 1 < (([[[(1 : ZMod 17), 2], [3, 4]], [[5, 6]]]).getD i []).length))
    ∧ ∃ steps, answer_query [[[(1 : ZMod 17), 2], [3, 4]], [[5, 6]]] 3 = some steps ∧
        steps.length = ([[[(1 : ZMod 17), 2], [3, 4]], [[5, 6]]] :
          List (List (List (ZMod 17)))).length ∧
        ∀ i mat row, ([[[(1 : ZMod 17), 2], [3, 4]], [[5, 6]]] :
            List (List (List (ZMod 17))))[i]? = some mat →
          mat[((3 : ℕ) >>> i) >>> 1]? = some row →
          steps[i]? = some ⟨row.getD ((((3 : ℕ) >>> i) ^^^ 1) % 2) default,
                            ((3 : ℕ) >>> i) >>> 1⟩ :=
  ⟨⟨by decide, by decide⟩,
   answer_query_spec [[[(1 : ZMod 17), 2], [3, 4]], [[5, 6]]] 3 (by decide) (by decide)⟩

theorem mergeNext_length {F : Type} [CommRing F] (folded2 : List F) (rest : List (List F)) :
    (mergeNext folded2 rest).1.length = folded2.length := by
  unfold mergeNext
  rcases rest with _ | ⟨v, rs⟩
  · rfl
  · by_cases hv : v.length = folded2.length
    · simp [hv]
    · simp [hv]

theorem commitPhaseGo_final_length {F Cm Wit St : Type} [CommRing F]
    (cfg : FriConfigF) (caps : ChallengerCaps F Cm Wit St) (commitFn : List (F × F) → Cm) :
    ∀ (fuel : ℕ) (folded : List F) (rest : List (List F)) (st : St) (k : ℕ)
      (cms : List Cm) (dats : List (List (F × F))) (fin : List F) (st' : St),
      folded.length = 2 ^ k → cfg.log_blowup + cfg.log_final_poly_len ≤ k →
      commitPhaseGo cfg caps commitFn fuel folded rest st = some (cms, dats, fin, st') →
      fin.length = 2 ^ (cfg.log_blowup + cfg.log_final_poly_len) := by
  intro fuel
  induction fuel with
  | zero =>
    intro folded rest st k cms dats fin st' _ _ h
    simp [commitPhaseGo] at h
  | succ fuel ih =>
    intro folded rest st k cms dats fin st' hlen hk h
    simp only [commitPhaseGo] at h
    by_cases hgt : folded.length > cfg.blowup * cfg.finalPolyLen
    · rw [if_pos hgt] at h
      cases hpu : pairUp folded with
      | none => rw [hpu] at h; simp at h
      | some pairs =>
        rw [hpu] at h
        dsimp only at h
        cases hrec : commitPhaseGo cfg caps commitFn fuel
            (mergeNext (fold_matrix
              (caps.sampleExt (caps.observeCommit (commitFn pairs) st)).1 pairs) rest).1
            (mergeNext (fold_matrix
              (caps.sampleExt (caps.observeCommit (commitFn pairs) st)).1 pairs) rest).2
            (caps.sampleExt (caps.observeCommit (commitFn pairs) st)).2 with
        | none => rw [hrec] at h; simp at h
        | some res =>
          obtain ⟨cms', dats', fin', st''⟩ := res
          rw [hrec] at h
          dsimp only at h
          cases h
          -- folding halves the length: the next codeword lives at exponent k - 1
          have hkt : cfg.log_blowup + cfg.log_final_poly_len < k := by
            have hTlt : (2 : ℕ) ^ (cfg.log_blowup + cfg.log_final_poly_len) < 2 ^ k := by
              have : cfg.blowup * cfg.finalPolyLen
                  = 2 ^ (cfg.log_blowup + cfg.log_final_poly_len) := by
                rw [FriConfigF.blowup, FriConfigF.finalPolyLen, pow_add]
              omega
            exact (Nat.pow_lt_pow_iff_right (by norm_num)).mp hTlt
          have hpl : 2 * pairs.length = folded.length := pairUp_length folded pairs hpu
          have hplk : pairs.length = 2 ^ (k - 1) := by
            have h2 : (2 : ℕ) ^ k = 2 * 2 ^ (k - 1) := by
              have hkk : k - 1 + 1 = k := by omega
              calc (2 : ℕ) ^ k = 2 ^ (k - 1 + 1) := by rw [hkk]
                _ = 2 * 2 ^ (k - 1) := by rw [pow_succ]; ring
            omega
          have hnext : (mergeNext (fold_matrix
              (caps.sampleExt (caps.observeCommit (commitFn pairs) st)).1 pairs) rest).1.length
              = 2 ^ (k - 1) := by
            rw [mergeNext_length, fold_matrix_length, hplk]
          exact ih _ _ _ (k - 1) _ _ _ _ hnext (by omega) hrec
    · rw [if_neg hgt] at h
      cases h
      have hTge : 2 ^ k ≤ 2 ^ (cfg.log_blowup + cfg.log_final_poly_len) := by
        have : cfg.blowup * cfg.finalPolyLen
            = 2 ^ (cfg.log_blowup + cfg.log_final_poly_len) := by
          rw [FriConfigF.blowup, FriConfigF.finalPolyLen, pow_add]
        omega
      have hTle : (2 : ℕ) ^ (cfg.log_blowup + cfg.log_final_poly_len) ≤ 2 ^ k :=
        Nat.pow_le_pow_right (by norm_num) hk
      omega

/-- C2 (amended): for every valid input to the commit phase whose longest
codeword has power-of-two length at least `blowup * final_poly_len`, and any
length-preserving inverse transform, the `final_poly` produced by
`commit_phase` has length exactly `2 ^ (log_blowup + log_final_poly_len)` —
that is, `blowup * final_poly_len`, the length of the fully-folded codeword
(not `2 ^ log_final_poly_len`, which it exceeds by the blowup factor). -/
theorem commit_phase_final_poly_length {F Cm Wit St : Type} [CommRing F] [DecidableEq F]
    (cfg : FriConfigF) (caps : ChallengerCaps F Cm Wit St) (commitFn : List (F × F) → Cm)
    (idft : List F → List F) (inputs : List (List F)) (st : St)
    (res : CommitPhaseResultE F Cm) (st' : St) (k : ℕ)
    (hlen : (inputs.headD []).length = 2 ^ k)
    (hk : cfg.log_blowup + cfg.log_final_poly_len ≤ k)
    (hidft : ∀ v, (idft v).length = v.length)
    (hres : commit_phase cfg caps commitFn idft inputs st = some (res, st')) :
    res.final_poly.length = 2 ^ (cfg.log_blowup + cfg.log_final_poly_len) := by
  letI : Inhabited F := ⟨0⟩
  rcases inputs with _ | ⟨first, rest⟩
  · simp [commit_phase] at hres
  · simp only [commit_phase] at hres
    cases hgo : commitPhaseGo cfg caps commitFn (first.length + 1) first rest st with
    | none => rw [hgo] at hres; simp at hres
    | some r =>
      obtain ⟨cms, dats, folded, st2⟩ := r
      rw [hgo] at hres
      dsimp only at hres
      split at hres
      · cases hres
        have hfold : folded.length = 2 ^ (cfg.log_blowup + cfg.log_final_poly_len) :=
          commitPhaseGo_final_length cfg caps commitFn (first.length + 1) first rest st k
            cms dats folded st2 (by simpa using hlen) hk hgo
        dsimp only
        rw [hidft, reverseSliceIndexBits_length, hfold]
      · exact absurd hres (by simp)

/-- Counterexample to C2 as stated: with `log_blowup = 1` and
`log_final_poly_len = 0`, the valid single-codeword input `[5,5,5,5]` over
`ZMod 17` passes the prover's assertions, and `commit_phase` succeeds with a
`final_poly` of length `2`, not `2 ^ log_final_poly_len = 1`. -/
theorem commit_phase_final_poly_length_counterexample :
    proveAsserts [[(5 : ZMod 17), 5, 5, 5]] = true
    ∧ (commit_phase cfg17 caps17 commitFn17 idft17 [[(5 : ZMod 17), 5, 5, 5]] ()).map
        (fun r => r.1.final_poly.length) = some 2
    ∧ (2 : ℕ) ≠ 2 ^ cfg17.log_final_poly_len := by
  refine ⟨by decide, by decide, by decide⟩

/-- Witness for the amended C2 at the same concrete instance (with `7`s):
the final polynomial's length is `2 ^ (log_blowup + log_final_poly_len)`. -/
theorem commit_phase_final_poly_length_witness :
    commit_phase cfg17 caps17 commitFn17 idft17 [[(7 : ZMod 17), 7, 7, 7]] () =
      some (⟨[()], [[(7, 7), (7, 7)]], [7, 0]⟩, ())
    ∧ (⟨[()], [[(7, 7), (7, 7)]], [7, 0]⟩ :
        CommitPhaseResultE (ZMod 17) Unit).final_poly.length
      = 2 ^ (cfg17.log_blowup + cfg17.log_final_poly_len) :=
  ⟨by decide,
   commit_phase_final_poly_length cfg17 caps17 commitFn17 idft17
     [[(7 : ZMod 17), 7, 7, 7]] () ⟨[()], [[(7, 7), (7, 7)]], [7, 0]⟩ () 2
     (by decide) (by decide) idft17_length (by decide)⟩

/-- C3: on every input on which `commit_phase` returns, each coefficient of
the returned `final_poly` at index `2 ^ log_final_poly_len` or beyond is zero;
and the condition is genuinely checked — on the concrete input `[1,2,3,4]`
(not a low-degree codeword) the assertion fires and `commit_phase` does not
return. -/
theorem commit_phase_tail_zero {F Cm Wit St : Type} [CommRing F] [DecidableEq F] :
    (∀ (cfg : FriConfigF) (caps : ChallengerCaps F Cm Wit St)
      (commitFn : List (F × F) → Cm) (idft : List F → List F)
      (inputs : List (List F)) (st : St) (res : CommitPhaseResultE F Cm) (st' : St),
      commit_phase cfg caps commitFn idft inputs st = some (res, st') →
      ∀ i, 2 ^ cfg.log_final_poly_len ≤ i → res.final_poly.getD i 0 = 0)
    ∧ commit_phase cfg17 caps17 commitFn17 idft17 [[(1 : ZMod 17), 2, 3, 4]] () = none := by
  constructor
  · intro cfg caps commitFn idft inputs st res st' hres i hi
    letI : Inhabited F := ⟨0⟩
    rcases inputs with _ | ⟨first, rest⟩
    · simp [commit_phase] at hres
    · simp only [commit_phase] at hres
      cases hgo : commitPhaseGo cfg caps commitFn (first.length + 1) first rest st with
      | none => rw [hgo] at hres; simp at hres
      | some r =>
        obtain ⟨cms, dats, folded, st2⟩ := r
        rw [hgo] at hres
        dsimp only at hres
        split at hres
        · cases hres
          next htail =>
            dsimp only
            rcases hlt : (idft (reverseSliceIndexBits folded))[i]? with _ | x
            · simp [List.getD, hlt]
            · have hx : x ∈ (idft (reverseSliceIndexBits folded)).drop
                  (2 ^ cfg.log_final_poly_len) := by
                have : (List.drop (2 ^ cfg.log_final_poly_len)
                    (idft (reverseSliceIndexBits folded)))[i - 2 ^ cfg.log_final_poly_len]?
                    = some x := by
                  rw [List.getElem?_drop]
                  rwa [Nat.add_sub_cancel' hi]
                exact List.getElem?_mem this
              have := List.all_eq_true.mp htail x hx
              simp only [decide_eq_true_eq] at this
              simp [List.getD, hlt, this]
        · exact absurd hres (by simp)
  · decide

/-- Witness for C3's universal part at a successful concrete run: the
coefficient at index `1 = 2 ^ log_final_poly_len` of the returned
`final_poly` is zero. -/
theorem commit_phase_tail_zero_witness :
    commit_phase cfg17 caps17 commitFn17 idft17 [[(5 : ZMod 17), 5, 5, 5]] () =
      some (⟨[()], [[(5, 5), (5, 5)]], [5, 0]⟩, ())
    ∧ (⟨[()], [[(5, 5), (5, 5)]], [5, 0]⟩ :
        CommitPhaseResultE (ZMod 17) Unit).final_poly.getD 1 0 = 0 :=
  ⟨by decide,
   commit_phase_tail_zero.1 cfg17 caps17 commitFn17 idft17
     [[(5 : ZMod 17), 5, 5, 5]] () ⟨[()], [[(5, 5), (5, 5)]], [5, 0]⟩ ()
     (by decide) 1 (by decide)⟩

theorem commitPhaseGo_rounds {F Cm Wit St : Type} [CommRing F]
    (cfg : FriConfigF) (caps : ChallengerCaps F Cm Wit St) (commitFn : List (F × F) → Cm) :
    ∀ (fuel : ℕ) (folded : List F) (rest : List (List F)) (st : St)
      (cms : List Cm) (dats : List (List (F × F))) (fin : List F) (st' : St),
      commitPhaseGo cfg caps commitFn fuel folded rest st = some (cms, dats, fin, st') →
      (dats ≠ [] → 2 * (dats.headD []).length = folded.length)
      ∧ (∀ i, i + 1 < dats.length → 2 * (dats.getD (i + 1) []).length = (dats.getD i []).length)
      ∧ (∀ i < dats.length, 2 * (dats.getD i []).length > cfg.blowup * cfg.finalPolyLen)
      ∧ fin.length ≤ cfg.blowup * cfg.finalPolyLen
      ∧ (dats = [] → fin = folded)
      ∧ (dats ≠ [] → fin.length = (dats.getLastD []).length) := by
  intro fuel
  induction fuel with
  | zero =>
    intro folded rest st cms dats fin st' h
    simp [commitPhaseGo] at h
  | succ fuel ih =>
    intro folded rest st cms dats fin st' h
    simp only [commitPhaseGo] at h
    by_cases hgt : folded.length > cfg.blowup * cfg.finalPolyLen
    · rw [if_pos hgt] at h
      cases hpu : pairUp folded with
      | none => rw [hpu] at h; simp at h
      | some pairs =>
        rw [hpu] at h
        dsimp only at h
        cases hrec : commitPhaseGo cfg caps commitFn fuel
            (mergeNext (fold_matrix
              (caps.sampleExt (caps.observeCommit (commitFn pairs) st)).1 pairs) rest).1
            (mergeNext (fold_matrix
              (caps.sampleExt (caps.observeCommit (commitFn pairs) st)).1 pairs) rest).2
            (caps.sampleExt (caps.observeCommit (commitFn pairs) st)).2 with
        | none => rw [hrec] at h; simp at h
        | some res =>
          obtain ⟨cms', dats', fin', st''⟩ := res
          obtain ⟨ihead, ichain, iguard, ifin, inil, ilast⟩ :=
            ih _ _ _ cms' dats' fin' st'' hrec
          rw [hrec] at h
          dsimp only at h
          cases h
          have hpl : 2 * pairs.length = folded.length := pairUp_length folded pairs hpu
          have hnextlen : (mergeNext (fold_matrix
              (caps.sampleExt (caps.observeCommit (commitFn pairs) st)).1 pairs) rest).1.length
              = pairs.length := by
            rw [mergeNext_length, fold_matrix_length]
          refine ⟨fun _ => by simpa using hpl, ?_, ?_, ifin, by simp, ?_⟩
          · intro i hi
            match i with
            | 0 =>
              rcases hd : dats' with _ | ⟨d0, ds⟩
              · rw [hd] at hi; simp at hi
              · have := ihead (by rw [hd]; simp)
                rw [hd] at this
                simp only [List.headD_cons] at this
                simpa [hd, hnextlen] using this
            | i + 1 =>
              have := ichain i (by simpa using Nat.lt_of_succ_lt_succ hi)
              simpa using this
          · intro i hi
            match i with
            | 0 => simpa [hpl] using hgt
            | i + 1 =>
              have := iguard i (by simpa using Nat.lt_of_succ_lt_succ hi)
              simpa using this
          · intro _
            rcases hd : dats' with _ | ⟨d0, ds⟩
            · have hfe := inil hd
              subst hfe
              simp [hd, hnextlen]
            · have := ilast (by rw [hd]; simp)
              rw [hd] at this
              simpa [hd] using this
    · rw [if_neg hgt] at h
      cases h
      refine ⟨by simp, by simp, by simp, by omega, fun _ => rfl, by simp⟩

/-- C4: during `commit_phase`, the codeword length after fold round `i` is
exactly half the codeword length at round `i-1` — including when an
equal-length input from the sorted list is added elementwise into the freshly
folded codeword, which preserves its length — and folding terminates exactly
when the codeword length is no longer greater than
`blowup * final_poly_len`.  Stated over the per-round retained matrices
`res.data`: round `i`'s codeword length is `2 * (res.data[i]).length`. -/
theorem commit_phase_halving {F Cm Wit St : Type} [CommRing F] [DecidableEq F]
    (cfg : FriConfigF) (caps : ChallengerCaps F Cm Wit St) (commitFn : List (F × F) → Cm)
    (idft : List F → List F) (inputs : List (List F)) (st : St)
    (res : CommitPhaseResultE F Cm) (st' : St)
    (hidft : ∀ v, (idft v).length = v.length)
    (hres : commit_phase cfg caps commitFn idft inputs st = some (res, st')) :
    (res.data ≠ [] → 2 * (res.data.headD []).length = (inputs.headD []).length)
    ∧ (∀ i, i + 1 < res.data.length →
        2 * (res.data.getD (i + 1) []).length = (res.data.getD i []).length)
    ∧ (∀ i < res.data.length,
        2 * (res.data.getD i []).length > cfg.blowup * cfg.finalPolyLen)
    ∧ res.final_poly.length ≤ cfg.blowup * cfg.finalPolyLen
    ∧ (res.data ≠ [] → res.final_poly.length = (res.data.getLastD []).length)
    ∧ (res.data = [] → res.final_poly.length = (inputs.headD []).length) := by
  letI : Inhabited F := ⟨0⟩
  rcases inputs with _ | ⟨first, rest⟩
  · simp [commit_phase] at hres
  · simp only [commit_phase] at hres
    cases hgo : commitPhaseGo cfg caps commitFn (first.length + 1) first rest st with
    | none => rw [hgo] at hres; simp at hres
    | some r =>
      obtain ⟨cms, dats, folded, st2⟩ := r
      obtain ⟨ihead, ichain, iguard, ifin, inil, ilast⟩ :=
        commitPhaseGo_rounds cfg caps commitFn (first.length + 1) first rest st
          cms dats folded st2 hgo
      rw [hgo] at hres
      dsimp only at hres
      split at hres
      · cases hres
        have hfp : (idft (reverseSliceIndexBits folded)).length = folded.length := by
          rw [hidft, reverseSliceIndexBits_length]
        exact ⟨ihead, ichain, iguard, by simpa [hfp] using ifin,
          fun hne => by rw [hfp]; exact ilast hne,
          fun hnil => by rw [hfp, inil hnil]; rfl⟩
      · exact absurd hres (by simp)

/-- Witness for C4 at a concrete two-round run with an equal-height merge:
input codewords of lengths `8` and `4` over `ZMod 17`. -/
theorem commit_phase_halving_witness :
    commit_phase cfg17 caps17 commitFn17 idft17
      [[(2 : ZMod 17), 2, 2, 2, 2, 2, 2, 2], [3, 3, 3, 3]] () =
      some (⟨[(), ()], [[(2, 2), (2, 2), (2, 2), (2, 2)], [(5, 5), (5, 5)]], [5, 0]⟩, ())
    ∧ (((⟨[(), ()], [[(2, 2), (2, 2), (2, 2), (2, 2)], [(5, 5), (5, 5)]], [5, 0]⟩ :
          CommitPhaseResultE (ZMod 17) Unit).data ≠ [] →
        2 * ((⟨[(), ()], [[(2, 2), (2, 2), (2, 2), (2, 2)], [(5, 5), (5, 5)]], [5, 0]⟩ :
          CommitPhaseResultE (ZMod 17) Unit).data.headD []).length
          = ([[(2 : ZMod 17), 2, 2, 2, 2, 2, 2, 2], [3, 3, 3, 3]].headD []).length)
      ∧ (∀ i, i + 1 < ([[(2, 2), (2, 2), (2, 2), (2, 2)], [(5, 5), (5, 5)]] :
            List (List (ZMod 17 × ZMod 17))).length →
          2 * (([[(2, 2), (2, 2), (2, 2), (2, 2)], [(5, 5), (5, 5)]] :
            List (List (ZMod 17 × ZMod 17))).getD (i + 1) []).length
            = (([[(2, 2), (2, 2), (2, 2), (2, 2)], [(5, 5), (5, 5)]] :
            List (List (ZMod 17 × ZMod 17))).getD i []).length)) := by
  have h := commit_phase_halving cfg17 caps17 commitFn17 idft17
    [[(2 : ZMod 17), 2, 2, 2, 2, 2, 2, 2], [3, 3, 3, 3]] ()
    ⟨[(), ()], [[(2, 2), (2, 2), (2, 2), (2, 2)], [(5, 5), (5, 5)]], [5, 0]⟩ ()
    idft17_length (by decide)
  exact ⟨by decide, h.1, h.2.1⟩

theorem listMapOpt_eq_some_map {α β : Type} (f : α → Option β) (g : α → β) :
    ∀ l : List α, (∀ a ∈ l, f a = some (g a)) → listMapOpt f l = some (l.map g) := by
  intro l
  induction l with
  | nil => intro _; rfl
  | cons a tl ih =>
    intro h
    have ha := h a (by simp)
    have htl := ih (fun x hx => h x (by simp [hx]))
    simp [listMapOpt, ha, htl]

theorem packChunksGo_length {T : Type} (w : ℕ) :
    ∀ (k : ℕ) (xs : List T), (packChunksGo w k xs).length = k := by
  intro k
  induction k with
  | zero => intro xs; rfl
  | succ k ih => intro xs; simp [packChunksGo, ih]

theorem packChunksGo_getD {T : Type} (w : ℕ) :
    ∀ (k : ℕ) (xs : List T) (j : ℕ), j < k →
      (packChunksGo w k xs).getD j [] = (xs.drop (w * j)).take w := by
  intro k
  induction k with
  | zero => intro xs j hj; omega
  | succ k ih =>
    intro xs j hj
    match j with
    | 0 => simp [packChunksGo]
    | j + 1 =>
      have := ih (xs.drop w) j (by omega)
      simp only [packChunksGo, List.getD_cons_succ, this, List.drop_drop]
      congr 2
      ring

theorem zipWith_add_sum {M : Type} [AddCommMonoid M] :
    ∀ (a b : List M), a.length = b.length →
      (List.zipWith (· + ·) a b).sum = a.sum + b.sum := by
  intro a
  induction a with
  | nil =>
    intro b hb
    have : b = [] := by
      cases b
      · rfl
      · simp at hb
    subst this
    simp
  | cons x a ih =>
    intro b hb
    cases b with
    | nil => simp at hb
    | cons y b =>
      simp only [List.zipWith_cons_cons, List.sum_cons, ih b (by simpa using hb)]
      abel

theorem zip_eq_map_range {α β : Type} (dA : α) (dB : β) :
    ∀ (A : List α) (B : List β), A.length ≤ B.length →
      A.zip B = (List.range A.length).map (fun i => (A.getD i dA, B.getD i dB)) := by
  intro A
  induction A with
  | nil => intro B _; rfl
  | cons x A ih =>
    intro B hB
    cases B with
    | nil => simp at hB
    | cons y B =>
      simp only [List.zip_cons_cons, List.length_cons, List.range_succ_eq_map,
        List.map_cons, List.map_map]
      refine congrArg₂ _ rfl ?_
      rw [ih B (by simpa using hB)]
      rfl

theorem getD_map_range {β : Type} (d : β) (f : ℕ → β) (n j : ℕ) (hj : j < n) :
    ((List.range n).map f).getD j d = f j := by
  rw [List.getD_eq_getElem?_getD, List.getElem?_map, List.getElem?_range hj]
  rfl

theorem sum_range_add {M : Type} [AddCommMonoid M] (f : ℕ → M) (m n : ℕ) :
    ∑ i ∈ Finset.range (m + n), f i
      = (∑ i ∈ Finset.range m, f i) + ∑ i ∈ Finset.range n, f (m + i) := by
  induction n with
  | zero => simp
  | succ n ih =>
    rw [show m + (n + 1) = (m + n) + 1 by ring, Finset.sum_range_succ, ih,
      Finset.sum_range_succ, add_assoc]

theorem zip_smul_sum {F EF : Type} [CommRing F] [CommRing EF] [Algebra F EF] :
    ∀ (ys : List F) (qs : List EF) (g : ℕ → EF), ys.length ≤ qs.length →
      (∀ i, i < ys.length → qs.getD i 0 = g i) →
      ((ys.zip qs).map (fun pr => pr.1 • pr.2)).sum
        = ∑ i ∈ Finset.range ys.length, ys.getD i 0 • g i := by
  intro ys
  induction ys with
  | nil => intro qs g _ _; simp
  | cons x ys ih =>
    intro qs g hlen hg
    cases qs with
    | nil => simp at hlen
    | cons q qs =>
      have h0 := hg 0 (by simp)
      simp only [List.getD_cons_zero] at h0
      have ihh := ih qs (fun i => g (i + 1)) (by simpa using hlen)
        (fun i hi => by
          have := hg (i + 1) (by simpa using Nat.succ_lt_succ hi)
          simpa using this)
      simp only [List.zip_cons_cons, List.map_cons, List.sum_cons, ihh, h0,
        List.length_cons, Finset.sum_range_succ']
      simp [add_comm]

theorem zip_mul_sum {EF : Type} [CommRing EF] :
    ∀ (ys : List EF) (qs : List EF) (g : ℕ → EF), ys.length ≤ qs.length →
      (∀ i, i < ys.length → qs.getD i 0 = g i) →
      ((qs.zip ys).map (fun pr => pr.1 * pr.2)).sum
        = ∑ i ∈ Finset.range ys.length, g i * ys.getD i 0 := by
  intro ys
  induction ys with
  | nil => intro qs g _ _; cases qs <;> simp
  | cons x ys ih =>
    intro qs g hlen hg
    cases qs with
    | nil => simp at hlen
    | cons q qs =>
      have h0 := hg 0 (by simp)
      simp only [List.getD_cons_zero] at h0
      have ihh := ih qs (fun i => g (i + 1)) (by simpa using hlen)
        (fun i hi => by
          have := hg (i + 1) (by simpa using Nat.succ_lt_succ hi)
          simpa using this)
      simp only [List.zip_cons_cons, List.map_cons, List.sum_cons, ihh, h0,
        List.length_cons, Finset.sum_range_succ']
      simp [add_comm]

theorem getElem?_eq_some_getD {T : Type} (l : List T) (i : ℕ) (d : T) (h : i < l.length) :
    l[i]? = some (l.getD i d) := by
  rw [List.getElem?_eq_getElem h, List.getD_eq_getElem l d h]

theorem drop_take_map_range {β : Type} (f : ℕ → β) (m a w : ℕ) (h : a + w ≤ m) :
    (((List.range m).map f).drop a).take w = (List.range w).map (fun l => f (a + l)) := by
  apply List.ext_getElem
  · simp
    omega
  · intro i h1 h2
    simp only [List.getElem_take, List.getElem_drop, List.getElem_map, List.getElem_range]

theorem le_nextMultipleOf (n w : ℕ) (hw : 0 < w) : n ≤ nextMultipleOf n w := by
  unfold nextMultipleOf
  rw [if_neg (by omega)]
  rcases Nat.eq_zero_or_pos n with hn | hn
  · omega
  · have h1 : n + w - 1 = (n - 1) + w := by omega
    rw [h1, Nat.add_div_right _ hw]
    have hqr := Nat.div_add_mod (n - 1) w
    have hr : (n - 1) % w < w := Nat.mod_lt _ hw
    have hs : w * ((n - 1) / w + 1) = w * ((n - 1) / w) + w := Nat.mul_succ _ _
    omega

theorem nextMultipleOf_mod (n w : ℕ) (hw : 0 < w) : nextMultipleOf n w % w = 0 := by
  unfold nextMultipleOf
  rw [if_neg (by omega)]
  exact Nat.mul_mod_right _ _

theorem getD_map_finRange {β : Type} (dflt : β) (D : ℕ) (f : Fin D → β) (d : Fin D) :
    ((List.finRange D).map f).getD d.1 dflt = f d := by
  rw [List.getD_eq_getElem?_getD, List.getElem?_map]
  have : (List.finRange D)[d.1]? = some d := by
    rw [List.getElem?_eq_getElem (by simp [d.2])]
    simp
  rw [this]
  rfl

theorem PowersReducer.new_eq {F EF : Type} [CommRing F] [CommRing EF] [Algebra F EF]
    (D W : ℕ) (e : EF ≃ₗ[F] (Fin D → F)) (base : EF) (max_width : ℕ)
    (hW : 0 < W) (hD : 0 < D) :
    PowersReducer.new D W e base max_width =
      some ⟨(List.range (nextMultipleOf max_width W)).map (fun i => base ^ i),
            (List.range (nextMultipleOf max_width W / W)).map (fun j =>
              (List.finRange D).map (fun d =>
                (List.range W).map (fun l => e (base ^ (j * W + l)) d)))⟩ := by
  unfold PowersReducer.new
  set m := nextMultipleOf max_width W with hm
  have hmod : m % W = 0 := nextMultipleOf_mod _ _ hW
  rw [if_neg (by simpa using hmod)]
  have hWm : ∀ j, j < m / W → W * j + W ≤ m := by
    intro j hj
    have h1 : W * (j + 1) ≤ W * (m / W) := Nat.mul_le_mul_left W hj
    have h2 : W * (m / W) ≤ m := Nat.mul_div_le m W
    rw [Nat.mul_succ] at h1
    omega
  have htv : transpose_vec ((List.finRange D).map
      (fun d => packChunksGo W (m / W)
        (((List.range m).map (fun i => base ^ i)).map (fun a => e a d)))) =
      some ((List.range (m / W)).map (fun j =>
        (List.finRange D).map (fun d =>
          (List.range W).map (fun l => e (base ^ (j * W + l)) d)))) := by
    have hfr : ∃ d0 drest, List.finRange D = d0 :: drest := by
      cases hD' : List.finRange D with
      | nil =>
        exfalso
        have := List.length_finRange D
        rw [hD'] at this
        simp at this
        omega
      | cons d0 drest => exact ⟨d0, drest, rfl⟩
    obtain ⟨d0, drest, hfr⟩ := hfr
    have hcons : (List.finRange D).map
        (fun d => packChunksGo W (m / W)
          (((List.range m).map (fun i => base ^ i)).map (fun a => e a d)))
        = packChunksGo W (m / W)
            (((List.range m).map (fun i => base ^ i)).map (fun a => e a d0))
          :: drest.map (fun d => packChunksGo W (m / W)
            (((List.range m).map (fun i => base ^ i)).map (fun a => e a d))) := by
      rw [hfr, List.map_cons]
    rw [hcons]
    show listMapOpt _ (List.range (packChunksGo W (m / W)
      (((List.range m).map (fun i => base ^ i)).map (fun a => e a d0))).length) = _
    rw [packChunksGo_length, ← hcons]
    apply listMapOpt_eq_some_map
    intro j hj
    rw [List.mem_range] at hj
    have hinner : listMapOpt (fun n => n[j]?)
        ((List.finRange D).map (fun d => packChunksGo W (m / W)
          (((List.range m).map (fun i => base ^ i)).map (fun a => e a d)))) =
        some (((List.finRange D).map (fun d => packChunksGo W (m / W)
          (((List.range m).map (fun i => base ^ i)).map (fun a => e a d)))).map
            (fun n => n.getD j [])) := by
      apply listMapOpt_eq_some_map
      intro n hn
      rw [List.mem_map] at hn
      obtain ⟨d, _, rfl⟩ := hn
      exact getElem?_eq_some_getD _ _ _ (by rw [packChunksGo_length]; exact hj)
    rw [hinner]
    congr 1
    rw [List.map_map]
    apply List.map_congr_left
    intro d _
    show (packChunksGo W (m / W)
      (((List.range m).map (fun i => base ^ i)).map (fun a => e a d))).getD j []
      = (List.range W).map (fun l => e (base ^ (j * W + l)) d)
    rw [packChunksGo_getD _ _ _ _ hj, List.map_map]
    rw [drop_take_map_range ((fun a => e a d) ∘ (fun i => base ^ i)) m (W * j) W
      (by have := hWm j hj; omega)]
    apply List.map_congr_left
    intro l _
    show e (base ^ (W * j + l)) d = e (base ^ (j * W + l)) d
    rw [Nat.mul_comm W j]
  rw [htv]

theorem foldl_sums_general {F EF : Type} [CommRing F] [CommRing EF] [Algebra F EF]
    (D W : ℕ) (e : EF ≃ₗ[F] (Fin D → F)) :
    ∀ (pairs : List (List F × List (List F))) (acc : Fin D → List F),
      (∀ d, (acc d).length = W) →
      (∀ p ∈ pairs, p.1.length = W ∧ ∀ d : Fin D, (p.2.getD d.1 []).length = W) →
      e.symm (fun d => ((pairs.foldl
          (fun sums xp d =>
            List.zipWith (· + ·) (sums d) (List.zipWith (· * ·) xp.1 (xp.2.getD d.1 [])))
          acc) d).sum)
      = e.symm (fun d => (acc d).sum)
        + (pairs.map (fun p =>
            e.symm (fun d => (List.zipWith (· * ·) p.1 (p.2.getD d.1 [])).sum))).sum := by
  intro pairs
  induction pairs with
  | nil => intro acc _ _; simp
  | cons p pairs ih =>
    intro acc hacc hp
    obtain ⟨hp1, hp2⟩ := hp p (by simp)
    have hacc' : ∀ d, ((fun d =>
        List.zipWith (· + ·) (acc d) (List.zipWith (· * ·) p.1 (p.2.getD d.1 []))) d).length
        = W := by
      intro d
      simp only [List.length_zipWith, hacc d, hp1, hp2 d]
      omega
    rw [List.foldl_cons, ih _ hacc' (fun q hq => hp q (by simp [hq]))]
    have hsplit : (fun d => ((fun d =>
        List.zipWith (· + ·) (acc d) (List.zipWith (· * ·) p.1 (p.2.getD d.1 []))) d).sum)
        = (fun d => (acc d).sum)
          + (fun d => (List.zipWith (· * ·) p.1 (p.2.getD d.1 [])).sum) := by
      funext d
      have : (List.zipWith (· + ·) (acc d) (List.zipWith (· * ·) p.1 (p.2.getD d.1 []))).sum
          = (acc d).sum + (List.zipWith (· * ·) p.1 (p.2.getD d.1 [])).sum := by
        apply zipWith_add_sum
        simp only [List.length_zipWith, hacc d, hp1, hp2 d]
        omega
      simpa using this
    rw [hsplit, map_add]
    simp only [List.map_cons, List.sum_cons]
    abel

theorem zipWith_mul_map_range_sum {F : Type} [CommRing F] :
    ∀ (c : List F) (w : ℕ) (g : ℕ → F), c.length = w →
      (List.zipWith (· * ·) c ((List.range w).map g)).sum
        = ∑ l ∈ Finset.range w, c.getD l 0 * g l := by
  intro c
  induction c with
  | nil =>
    intro w g hw
    subst hw
    simp
  | cons x c ih =>
    intro w g hw
    subst hw
    simp only [List.length_cons]
    rw [List.range_succ_eq_map, List.map_cons, List.zipWith_cons_cons, List.sum_cons,
      List.map_map, Finset.sum_range_succ']
    simp only [Function.comp_def]
    rw [ih c.length (fun i => g (i + 1)) rfl]
    simp [add_comm]

theorem chunk_symm_sum {F EF : Type} [CommRing F] [CommRing EF] [Algebra F EF]
    (D W : ℕ) (e : EF ≃ₗ[F] (Fin D → F)) (c : List F) (g : ℕ → EF) (off : ℕ)
    (hc : c.length = W) :
    e.symm (fun d => (List.zipWith (· * ·) c
      (((List.finRange D).map (fun d =>
        (List.range W).map (fun l => e (g (off + l)) d))).getD d.1 [])).sum)
    = ∑ l ∈ Finset.range W, c.getD l 0 • g (off + l) := by
  have hgetd : ∀ d : Fin D,
      ((List.finRange D).map (fun d =>
        (List.range W).map (fun l => e (g (off + l)) d))).getD d.1 []
      = (List.range W).map (fun l => e (g (off + l)) d) := by
    intro d
    exact getD_map_finRange [] D _ d
  have h1 : (fun d : Fin D => (List.zipWith (· * ·) c
      (((List.finRange D).map (fun d =>
        (List.range W).map (fun l => e (g (off + l)) d))).getD d.1 [])).sum)
      = fun d : Fin D => ∑ l ∈ Finset.range W, c.getD l 0 * e (g (off + l)) d := by
    funext d
    rw [hgetd d, zipWith_mul_map_range_sum c W _ hc]
  rw [h1]
  have h2 : (fun d : Fin D => ∑ l ∈ Finset.range W, c.getD l 0 * e (g (off + l)) d)
      = ∑ l ∈ Finset.range W, c.getD l 0 • e (g (off + l)) := by
    funext d
    rw [Finset.sum_apply]
    apply Finset.sum_congr rfl
    intro l _
    simp [smul_eq_mul]
  rw [h2, map_sum]
  congr 1
  funext l
  rw [map_smul, LinearEquiv.symm_apply_apply]

theorem list_sum_map_range {M : Type} [AddCommMonoid M] (f : ℕ → M) :
    ∀ n : ℕ, ((List.range n).map f).sum = ∑ i ∈ Finset.range n, f i := by
  intro n
  induction n with
  | zero => simp
  | succ n ih => rw [List.range_succ, List.map_append, List.sum_append,
      Finset.sum_range_succ, ih]; simp

theorem sum_chunks_reindex {M : Type} [AddCommMonoid M] (g : ℕ → M) :
    ∀ (k w : ℕ), (∑ j ∈ Finset.range k, ∑ l ∈ Finset.range w, g (j * w + l))
      = ∑ i ∈ Finset.range (k * w), g i := by
  intro k
  induction k with
  | zero => simp
  | succ k ih =>
    intro w
    rw [Finset.sum_range_succ, ih w, Nat.succ_mul, sum_range_add]

theorem getD_drop_take {T : Type} (dflt : T) (xs : List T) (a w l : ℕ)
    (hl : l < w) :
    ((xs.drop a).take w).getD l dflt = xs.getD (a + l) dflt := by
  rw [List.getD_eq_getElem?_getD, List.getD_eq_getElem?_getD]
  rw [List.getElem?_take_of_lt hl, List.getElem?_drop]

theorem getD_drop {T : Type} (dflt : T) (xs : List T) (a i : ℕ) :
    (xs.drop a).getD i dflt = xs.getD (a + i) dflt := by
  rw [List.getD_eq_getElem?_getD, List.getD_eq_getElem?_getD, List.getElem?_drop]

theorem reduce_base_ext_eq_sum {F EF : Type} [CommRing F] [CommRing EF] [Algebra F EF]
    (D W : ℕ) (e : EF ≃ₗ[F] (Fin D → F)) (base : EF) (max_width : ℕ)
    (r : PowersReducer F EF) (xs : List F) (ys : List EF)
    (hW : 0 < W) (hD : 0 < D)
    (hr : PowersReducer.new D W e base max_width = some r)
    (hxs : xs.length ≤ max_width) (hys : ys.length ≤ max_width) :
    r.reduce_base D W e xs
      = ∑ i ∈ Finset.range xs.length, base ^ i * algebraMap F EF (xs.getD i 0)
    ∧ r.reduce_ext ys
      = ∑ i ∈ Finset.range ys.length, base ^ i * ys.getD i 0 := by
  rw [PowersReducer.new_eq D W e base max_width hW hD] at hr
  cases hr
  have hmw : max_width ≤ nextMultipleOf max_width W := le_nextMultipleOf _ _ hW
  set m := nextMultipleOf max_width W with hm
  constructor
  · -- reduce_base
    set k := xs.length / W with hkdef
    have hkW : W * k ≤ xs.length := by
      have := Nat.div_mul_le_self xs.length W
      rw [hkdef, Nat.mul_comm]
      exact this
    have hkm : k ≤ m / W := Nat.div_le_div_right (le_trans hxs hmw)
    have hchunklen : ∀ j, j < k → W * j + W ≤ xs.length := by
      intro j hj
      have h1 : W * (j + 1) ≤ W * k := Nat.mul_le_mul_left W hj
      rw [Nat.mul_succ] at h1
      omega
    show e.symm (fun d => (((packChunksGo W k xs).zip
        ((List.range (m / W)).map (fun j =>
          (List.finRange D).map (fun d =>
            (List.range W).map (fun l => e (base ^ (j * W + l)) d))))).foldl
        (fun sums xp d =>
          List.zipWith (· + ·) (sums d) (List.zipWith (· * ·) xp.1 (xp.2.getD d.1 [])))
        (fun _ => List.replicate W 0) d).sum)
      + (((xs.drop (W * k)).zip
          (((List.range m).map (fun i => base ^ i)).drop (W * k))).map
          (fun pr => pr.1 • pr.2)).sum
      = ∑ i ∈ Finset.range xs.length, base ^ i * algebraMap F EF (xs.getD i 0)
    have hzip : (packChunksGo W k xs).zip
        ((List.range (m / W)).map (fun j =>
          (List.finRange D).map (fun d =>
            (List.range W).map (fun l => e (base ^ (j * W + l)) d))))
        = (List.range k).map (fun j => ((xs.drop (W * j)).take W,
            (List.finRange D).map (fun d =>
              (List.range W).map (fun l => e (base ^ (j * W + l)) d)))) := by
      rw [zip_eq_map_range [] []]
      · rw [packChunksGo_length]
        apply List.map_congr_left
        intro j hj
        rw [List.mem_range] at hj
        rw [packChunksGo_getD _ _ _ _ hj, getD_map_range _ _ _ _ (lt_of_lt_of_le hj hkm)]
      · rw [packChunksGo_length]
        simpa using hkm
    rw [hzip, foldl_sums_general D W e _ _ (fun d => by simp)
      (by
        intro p hp
        rw [List.mem_map] at hp
        obtain ⟨j, hj, rfl⟩ := hp
        rw [List.mem_range] at hj
        constructor
        · simp only [List.length_take, List.length_drop]
          have := hchunklen j hj
          omega
        · intro d
          rw [getD_map_finRange [] D _ d]
          simp)]
    have hacc0 : e.symm (fun _ : Fin D => (List.replicate W (0 : F)).sum) = 0 := by
      have : (fun _ : Fin D => (List.replicate W (0 : F)).sum) = 0 := by
        funext d
        simp
      rw [this, map_zero]
    rw [hacc0, zero_add]
    rw [List.map_map, list_sum_map_range]
    have hterm : ∀ j ∈ Finset.range k,
        ((fun p : List F × List (List F) =>
            e.symm (fun d => (List.zipWith (· * ·) p.1 (p.2.getD d.1 [])).sum)) ∘
          (fun j => ((xs.drop (W * j)).take W,
            (List.finRange D).map (fun d =>
              (List.range W).map (fun l => e (base ^ (j * W + l)) d))))) j
        = ∑ l ∈ Finset.range W, xs.getD (j * W + l) 0 • base ^ (j * W + l) := by
      intro j hj
      rw [Finset.mem_range] at hj
      show e.symm (fun d => (List.zipWith (· * ·) ((xs.drop (W * j)).take W)
        (((List.finRange D).map (fun d =>
          (List.range W).map (fun l => e (base ^ (j * W + l)) d))).getD d.1 [])).sum) = _
      rw [chunk_symm_sum D W e _ (fun i => base ^ i) (j * W)
        (by
          simp only [List.length_take, List.length_drop]
          have := hchunklen j hj
          omega)]
      apply Finset.sum_congr rfl
      intro l hl
      rw [Finset.mem_range] at hl
      rw [show j * W = W * j from Nat.mul_comm j W, getD_drop_take 0 xs (W * j) W l hl,
        Nat.mul_comm W j]
    rw [Finset.sum_congr rfl hterm,
      sum_chunks_reindex (fun i => xs.getD i 0 • base ^ i) k W]
    have hsfx : (((xs.drop (W * k)).zip
        (((List.range m).map (fun i => base ^ i)).drop (W * k))).map
        (fun pr => pr.1 • pr.2)).sum
        = ∑ i ∈ Finset.range (xs.length - W * k),
            xs.getD (W * k + i) 0 • base ^ (W * k + i) := by
      rw [zip_smul_sum (xs.drop (W * k)) _ (fun i => base ^ (W * k + i))
        (by
          simp only [List.length_drop, List.length_map, List.length_range]
          have := le_trans hxs hmw
          omega)
        (by
          intro i hi
          simp only [List.length_drop] at hi
          rw [getD_drop 0, getD_map_range _ _ _ _ (by
            have := le_trans hxs hmw
            omega)])]
      simp only [List.length_drop]
      apply Finset.sum_congr rfl
      intro i _
      rw [getD_drop 0]
    rw [hsfx]
    have hcomb : ∑ i ∈ Finset.range (k * W), xs.getD i 0 • base ^ i
        + ∑ i ∈ Finset.range (xs.length - W * k),
            xs.getD (W * k + i) 0 • base ^ (W * k + i)
        = ∑ i ∈ Finset.range xs.length, xs.getD i 0 • base ^ i := by
      rw [show k * W = W * k from Nat.mul_comm k W,
        ← sum_range_add (fun i => xs.getD i 0 • base ^ i) (W * k) (xs.length - W * k),
        Nat.add_sub_cancel' hkW]
    rw [hcomb]
    apply Finset.sum_congr rfl
    intro i _
    rw [Algebra.smul_def, mul_comm]
  · -- reduce_ext
    show ((((List.range m).map (fun i => base ^ i)).zip ys).map
        (fun pr => pr.1 * pr.2)).sum = _
    rw [zip_mul_sum ys _ (fun i => base ^ i)
      (by
        simp only [List.length_map, List.length_range]
        exact le_trans hys hmw)
      (by
        intro i hi
        exact getD_map_range _ _ _ _ (lt_of_lt_of_le hi (le_trans hys hmw)))]

/-- C7: for every challenge `base`, every `max_width`, and every base-field
input `xs` of length at most `max_width` — shorter than, equal to, or
spanning multiples of the packing width `W` — `reduce_base xs` equals the
naive `Σ_i base^i · xs[i]` exactly, and `reduce_ext` satisfies the same
equation for extension-field inputs. -/
theorem powers_reducer_correct {F EF : Type} [CommRing F] [CommRing EF] [Algebra F EF]
    (D W : ℕ) (e : EF ≃ₗ[F] (Fin D → F)) (base : EF) (max_width : ℕ)
    (r : PowersReducer F EF) (xs : List F) (ys : List EF)
    (hW : 0 < W) (hD : 0 < D)
    (hr : PowersReducer.new D W e base max_width = some r)
    (hxs : xs.length ≤ max_width) (hys : ys.length ≤ max_width) :
    r.reduce_base D W e xs
      = ∑ i ∈ Finset.range xs.length, base ^ i * algebraMap F EF (xs.getD i 0)
    ∧ r.reduce_ext ys
      = ∑ i ∈ Finset.range ys.length, base ^ i * ys.getD i 0 :=
  reduce_base_ext_eq_sum D W e base max_width r xs ys hW hD hr hxs hys

/-- Witness for C7 at challenge `(2,3)` in the two-limb algebra, packing
width `2`, `max_width = 3`, base input `[5,6,7]` (spanning the packing
width) and extension input `[(1,2),(3,4)]`. -/
theorem powers_reducer_correct_witness :
    PowersReducer.new 2 2 e17 (((2 : ZMod 17), (3 : ZMod 17))) 3
      = some ⟨[(1, 1), (2, 3), (4, 9), (8, 10)],
              [[[1, 2], [1, 3]], [[4, 8], [9, 10]]]⟩
    ∧ (⟨[(1, 1), (2, 3), (4, 9), (8, 10)],
        [[[1, 2], [1, 3]], [[4, 8], [9, 10]]]⟩ :
        PowersReducer (ZMod 17) (ZMod 17 × ZMod 17)).reduce_base 2 2 e17 [5, 6, 7]
      = ∑ i ∈ Finset.range ([(5 : ZMod 17), 6, 7].length),
          (((2 : ZMod 17), (3 : ZMod 17))) ^ i
            * algebraMap (ZMod 17) (ZMod 17 × ZMod 17) ([(5 : ZMod 17), 6, 7].getD i 0)
    ∧ (⟨[(1, 1), (2, 3), (4, 9), (8, 10)],
        [[[1, 2], [1, 3]], [[4, 8], [9, 10]]]⟩ :
        PowersReducer (ZMod 17) (ZMod 17 × ZMod 17)).reduce_ext [(1, 2), (3, 4)]
      = ∑ i ∈ Finset.range ([((1 : ZMod 17), (2 : ZMod 17)), (3, 4)].length),
          (((2 : ZMod 17), (3 : ZMod 17))) ^ i
            * [((1 : ZMod 17), (2 : ZMod 17)), (3, 4)].getD i 0 :=
  ⟨by decide,
   (powers_reducer_correct 2 2 e17 (((2 : ZMod 17), (3 : ZMod 17))) 3
     ⟨[(1, 1), (2, 3), (4, 9), (8, 10)], [[[1, 2], [1, 3]], [[4, 8], [9, 10]]]⟩
     [5, 6, 7] [(1, 2), (3, 4)] (by decide) (by decide) (by decide)
     (by decide) (by decide)).1,
   (powers_reducer_correct 2 2 e17 (((2 : ZMod 17), (3 : ZMod 17))) 3
     ⟨[(1, 1), (2, 3), (4, 9), (8, 10)], [[[1, 2], [1, 3]], [[4, 8], [9, 10]]]⟩
     [5, 6, 7] [(1, 2), (3, 4)] (by decide) (by decide) (by decide)
     (by decide) (by decide)).2⟩

theorem specLC_nil {F EF : Type} [CommRing F] [CommRing EF] [Algebra F EF] (alpha : EF) :
    specReducedOpeningLC alpha ([] : List (F × EF × EF)) = 0 := by
  simp [specReducedOpeningLC]

theorem specLC_cons {F EF : Type} [CommRing F] [CommRing EF] [Algebra F EF]
    (alpha : EF) (t : F × EF × EF) (l : List (F × EF × EF)) :
    specReducedOpeningLC alpha (t :: l)
      = (algebraMap F EF t.1 - t.2.1) * t.2.2 + alpha * specReducedOpeningLC alpha l := by
  unfold specReducedOpeningLC
  simp only [List.length_cons]
  rw [Finset.sum_range_succ']
  simp only [List.getD_cons_succ, List.getD_cons_zero, pow_zero, one_mul, pow_succ]
  rw [Finset.mul_sum, add_comm]
  congr 1
  apply Finset.sum_congr rfl
  intro j _
  ring

theorem specLC_append {F EF : Type} [CommRing F] [CommRing EF] [Algebra F EF]
    (alpha : EF) :
    ∀ (a b : List (F × EF × EF)),
      specReducedOpeningLC alpha (a ++ b)
        = specReducedOpeningLC alpha a + alpha ^ a.length * specReducedOpeningLC alpha b := by
  intro a
  induction a with
  | nil => intro b; simp [specLC_nil]
  | cons t a ih =>
    intro b
    rw [List.cons_append, specLC_cons, ih, specLC_cons, List.length_cons, pow_succ]
    ring

theorem specLC_event {F EF : Type} [CommRing F] [CommRing EF] [Algebra F EF]
    (alpha : EF) (row : List F) (ys : List EF) (q : EF) :
    specReducedOpeningLC alpha ((List.range row.length).map
        (fun i => (row.getD i 0, ys.getD i 0, q)))
      = (∑ j ∈ Finset.range row.length,
          alpha ^ j * (algebraMap F EF (row.getD j 0) - ys.getD j 0)) * q := by
  unfold specReducedOpeningLC
  simp only [List.length_map, List.length_range]
  rw [Finset.sum_mul]
  apply Finset.sum_congr rfl
  intro j hj
  rw [Finset.mem_range] at hj
  rw [getD_map_range _ _ _ _ hj]

theorem reduce_sub_eq {F EF : Type} [CommRing F] [CommRing EF] [Algebra F EF]
    (D W : ℕ) (e : EF ≃ₗ[F] (Fin D → F)) (alpha : EF) (max_width : ℕ)
    (red : PowersReducer F EF) (row : List F) (ys : List EF)
    (hW : 0 < W) (hD : 0 < D)
    (hred : PowersReducer.new D W e alpha max_width = some red)
    (hrow : row.length = ys.length) (hw : row.length ≤ max_width) :
    red.reduce_base D W e row - red.reduce_ext ys
      = ∑ j ∈ Finset.range row.length,
          alpha ^ j * (algebraMap F EF (row.getD j 0) - ys.getD j 0) := by
  obtain ⟨hb, he⟩ := reduce_base_ext_eq_sum D W e alpha max_width red row ys hW hD hred hw
    (by omega)
  rw [hb, he, ← hrow, ← Finset.sum_sub_distrib]
  apply Finset.sum_congr rfl
  intro j _
  ring

theorem proverReducedOpeningRow_go {F EF : Type} [CommRing F] [Field EF] [Algebra F EF]
    (D W : ℕ) (e : EF ≃ₗ[F] (Fin D → F)) (red : PowersReducer F EF) (alpha : EF)
    (gen : F) (tag : ℕ → F) (max_width : ℕ)
    (hW : 0 < W) (hD : 0 < D)
    (hred : PowersReducer.new D W e alpha max_width = some red) :
    ∀ (events : List (MatPointEvent F EF)) (acc : EF) (nr : ℕ),
      (∀ ev ∈ events, ev.row.length = ev.ys.length ∧ ev.row.length ≤ max_width) →
      (events.foldl (fun st ev =>
        (st.1 + (algebraMap F EF (eventX gen tag ev) - ev.z)⁻¹ * alpha ^ st.2
            * (red.reduce_base D W e ev.row - red.reduce_ext ev.ys),
         st.2 + ev.row.length)) (acc, nr)).1
      = acc + alpha ^ nr * specReducedOpeningLC alpha (flattenEvents gen tag events) := by
  intro events
  induction events with
  | nil =>
    intro acc nr _
    simp [flattenEvents, specLC_nil]
  | cons ev evs ih =>
    intro acc nr hlen
    obtain ⟨hrow, hw⟩ := hlen ev (by simp)
    rw [List.foldl_cons]
    rw [ih _ _ (fun q hq => hlen q (by simp [hq]))]
    have hflat : flattenEvents gen tag (ev :: evs)
        = ((List.range ev.row.length).map
            (fun i => (ev.row.getD i 0, ev.ys.getD i 0,
              (algebraMap F EF (eventX gen tag ev) - ev.z)⁻¹))) ++
          flattenEvents gen tag evs := by
      simp [flattenEvents]
    rw [hflat, specLC_append, specLC_event,
      reduce_sub_eq D W e alpha max_width red ev.row ev.ys hW hD hred hrow hw]
    simp only [List.length_map, List.length_range]
    rw [pow_add]
    ring

theorem verifier_inner_fold {F EF : Type} [CommRing F] [Field EF] [Algebra F EF]
    (alpha z xx : EF) :
    ∀ (pairs : List (F × EF)) (ro apow : EF),
      pairs.foldl (fun st2 pq =>
        (st2.1 + st2.2 * ((-pq.2 + algebraMap F EF pq.1) / (-z + xx)),
         st2.2 * alpha)) (ro, apow)
      = (ro + apow * ((∑ j ∈ Finset.range pairs.length,
            alpha ^ j * (algebraMap F EF (pairs.getD j (0, 0)).1 - (pairs.getD j (0, 0)).2))
          * (xx - z)⁻¹),
         apow * alpha ^ pairs.length) := by
  intro pairs
  induction pairs with
  | nil => intro ro apow; simp
  | cons pq pairs ih =>
    intro ro apow
    rw [List.foldl_cons, ih]
    have hq : (-pq.2 + algebraMap F EF pq.1) / (-z + xx)
        = (algebraMap F EF pq.1 - pq.2) * (xx - z)⁻¹ := by
      rw [div_eq_mul_inv, neg_add_eq_sub, neg_add_eq_sub]
    apply Prod.ext
    · show ro + apow * ((-pq.2 + algebraMap F EF pq.1) / (-z + xx))
        + apow * alpha * ((∑ j ∈ Finset.range pairs.length,
            alpha ^ j * (algebraMap F EF (pairs.getD j (0, 0)).1 - (pairs.getD j (0, 0)).2))
          * (xx - z)⁻¹) = _
      rw [hq]
      simp only [List.length_cons]
      rw [Finset.sum_range_succ']
      simp only [List.getD_cons_succ, List.getD_cons_zero, pow_zero, one_mul, pow_succ]
      have hS : ∑ j ∈ Finset.range pairs.length, alpha ^ j * alpha *
          (algebraMap F EF (pairs.getD j (0, 0)).1 - (pairs.getD j (0, 0)).2)
          = alpha * ∑ j ∈ Finset.range pairs.length, alpha ^ j *
            (algebraMap F EF (pairs.getD j (0, 0)).1 - (pairs.getD j (0, 0)).2) := by
        rw [Finset.mul_sum]
        exact Finset.sum_congr rfl (fun j _ => by ring)
      rw [hS]
      ring
    · show apow * alpha * alpha ^ pairs.length = _
      simp only [List.length_cons, pow_succ]
      ring

theorem verifierReducedOpeningRow_go {F EF : Type} [CommRing F] [Field EF] [Algebra F EF]
    (alpha : EF) (gen : F) (tag : ℕ → F) :
    ∀ (events : List (MatPointEvent F EF)) (ro apow : EF),
      (∀ ev ∈ events, ev.row.length = ev.ys.length) →
      events.foldl (fun st ev =>
        (ev.row.zip ev.ys).foldl (fun st2 pq =>
          (st2.1 + st2.2 * ((-pq.2 + algebraMap F EF pq.1)
              / (-ev.z + algebraMap F EF (eventX gen tag ev))),
           st2.2 * alpha)) st) (ro, apow)
      = (ro + apow * specReducedOpeningLC alpha (flattenEvents gen tag events),
         apow * alpha ^ ((events.map (fun ev => ev.row.length)).sum)) := by
  intro events
  induction events with
  | nil =>
    intro ro apow _
    simp [flattenEvents, specLC_nil]
  | cons ev evs ih =>
    intro ro apow hlen
    have hrow := (hlen ev (by simp))
    rw [List.foldl_cons, verifier_inner_fold, ih _ _ (fun q hq => hlen q (by simp [hq]))]
    have hziplen : (ev.row.zip ev.ys).length = ev.row.length := by
      rw [List.length_zip]
      omega
    have hzip : ev.row.zip ev.ys = (List.range ev.row.length).map
        (fun i => (ev.row.getD i 0, ev.ys.getD i 0)) :=
      zip_eq_map_range 0 0 ev.row ev.ys (by omega)
    have hgetd : ∀ j, j < ev.row.length →
        (ev.row.zip ev.ys).getD j (0, 0) = (ev.row.getD j 0, ev.ys.getD j 0) := by
      intro j hj
      rw [hzip, getD_map_range _ _ _ _ hj]
    have hflat : flattenEvents gen tag (ev :: evs)
        = ((List.range ev.row.length).map
            (fun i => (ev.row.getD i 0, ev.ys.getD i 0,
              (algebraMap F EF (eventX gen tag ev) - ev.z)⁻¹))) ++
          flattenEvents gen tag evs := by
      simp [flattenEvents]
    rw [hflat, specLC_append, specLC_event]
    have hsum1 : ∑ j ∈ Finset.range (ev.row.zip ev.ys).length,
        alpha ^ j * (algebraMap F EF ((ev.row.zip ev.ys).getD j (0, 0)).1
          - ((ev.row.zip ev.ys).getD j (0, 0)).2)
        = ∑ j ∈ Finset.range ev.row.length,
            alpha ^ j * (algebraMap F EF (ev.row.getD j 0) - ev.ys.getD j 0) := by
      rw [hziplen]
      apply Finset.sum_congr rfl
      intro j hj
      rw [Finset.mem_range] at hj
      rw [hgetd j hj]
    apply Prod.ext
    · show ro + apow * _ + apow * alpha ^ (ev.row.zip ev.ys).length * _ = _
      rw [hsum1, hziplen]
      simp only [List.length_map, List.length_range]
      ring
    · show apow * alpha ^ (ev.row.zip ev.ys).length * alpha ^ ((evs.map
        (fun ev => ev.row.length)).sum) = _
      rw [hziplen]
      simp only [List.map_cons, List.sum_cons, pow_add]
      ring

/-- C6: for a height bucket, the reduced opening accumulated by
`open_multi_batches` at domain point `X` equals
`Σ_i α^i · (p_i(X) − y_i) / (X − z)` over the (matrix column, point) pairs at
that height, with the `α` powers running consecutively across matrices; and
`verify_multi_batches` recomputes exactly this linear combination from the
opened values (with `X` the coset point at the query index's bit-reversed
position) before passing it to FRI challenge verification. -/
theorem reduced_opening_linear_combination {F EF : Type} [CommRing F] [Field EF]
    [Algebra F EF] (D W : ℕ) (e : EF ≃ₗ[F] (Fin D → F)) (alpha : EF)
    (gen : F) (tag : ℕ → F) (max_width : ℕ) (red : PowersReducer F EF)
    (events : List (MatPointEvent F EF))
    (hW : 0 < W) (hD : 0 < D)
    (hred : PowersReducer.new D W e alpha max_width = some red)
    (hlen : ∀ ev ∈ events, ev.row.length = ev.ys.length ∧ ev.row.length ≤ max_width) :
    proverReducedOpeningRow D W e red alpha gen tag events
      = specReducedOpeningLC alpha (flattenEvents gen tag events)
    ∧ verifierReducedOpeningRow alpha gen tag events
      = specReducedOpeningLC alpha (flattenEvents gen tag events) := by
  constructor
  · unfold proverReducedOpeningRow
    rw [proverReducedOpeningRow_go D W e red alpha gen tag max_width hW hD hred events
      0 0 hlen]
    simp
  · unfold verifierReducedOpeningRow
    rw [verifierReducedOpeningRow_go alpha gen tag events 0 1
      (fun ev hev => (hlen ev hev).1)]
    simp

/-- Witness for C6 at a concrete instance over `ZMod 17` (one-limb trivial
extension, packing width `2`): two events of widths `2` and `1`. -/
theorem reduced_opening_linear_combination_witness :
    (PowersReducer.new 1 2 eZ1 (3 : ZMod 17) 2 = some ⟨[1, 3], [[[1, 3]]]⟩
      ∧ (∀ ev ∈ [(⟨[1, 2], [4, 5], 6, 1, 1⟩ : MatPointEvent (ZMod 17) (ZMod 17)),
                 ⟨[7], [8], 9, 2, 3⟩],
          ev.row.length = ev.ys.length ∧ ev.row.length ≤ 2))
    ∧ (proverReducedOpeningRow 1 2 eZ1
          (⟨[1, 3], [[[1, 3]]]⟩ : PowersReducer (ZMod 17) (ZMod 17)) (3 : ZMod 17)
          (3 : ZMod 17) (fun _ => (4 : ZMod 17))
          [⟨[1, 2], [4, 5], 6, 1, 1⟩, ⟨[7], [8], 9, 2, 3⟩]
        = specReducedOpeningLC (3 : ZMod 17) (flattenEvents (3 : ZMod 17)
            (fun _ => (4 : ZMod 17)) [⟨[1, 2], [4, 5], 6, 1, 1⟩, ⟨[7], [8], 9, 2, 3⟩])
      ∧ verifierReducedOpeningRow (3 : ZMod 17) (3 : ZMod 17) (fun _ => (4 : ZMod 17))
          [⟨[1, 2], [4, 5], 6, 1, 1⟩, ⟨[7], [8], 9, 2, 3⟩]
        = specReducedOpeningLC (3 : ZMod 17) (flattenEvents (3 : ZMod 17)
            (fun _ => (4 : ZMod 17)) [⟨[1, 2], [4, 5], 6, 1, 1⟩, ⟨[7], [8], 9, 2, 3⟩])) :=
  ⟨⟨by decide, by decide⟩,
   reduced_opening_linear_combination 1 2 eZ1 (3 : ZMod 17) (3 : ZMod 17)
     (fun _ => (4 : ZMod 17)) 2
     (⟨[1, 3], [[[1, 3]]]⟩ : PowersReducer (ZMod 17) (ZMod 17))
     [⟨[1, 2], [4, 5], 6, 1, 1⟩, ⟨[7], [8], 9, 2, 3⟩]
     (by decide) (by decide) (by decide) (by decide)⟩

theorem log2Fuel_two_pow : ∀ (fuel k : ℕ), 2 ^ k ≤ fuel → log2Fuel fuel (2 ^ k) = k := by
  intro fuel
  induction fuel with
  | zero =>
    intro k hk
    have : (0 : ℕ) < 2 ^ k := by positivity
    omega
  | succ fuel ih =>
    intro k hk
    cases k with
    | zero => simp [log2Fuel]
    | succ m =>
      have h2 : 2 ≤ 2 ^ (m + 1) := by
        have : 0 < 2 ^ m := by positivity
        rw [pow_succ]; omega
      have hdiv : 2 ^ (m + 1) / 2 = 2 ^ m := by
        rw [pow_succ, Nat.mul_div_cancel _ (by norm_num)]
      have hm : 2 ^ m ≤ fuel := by
        have : 2 ^ m < 2 ^ (m + 1) := Nat.pow_lt_pow_right (by norm_num) (Nat.lt_succ_self m)
        omega
      simp only [log2Fuel, if_pos h2, hdiv, ih m hm]

theorem natLog2_pow (k : ℕ) : natLog2 (2 ^ k) = k :=
  log2Fuel_two_pow (2 ^ k) k le_rfl

theorem log2Strict_pow (k : ℕ) : log2Strict (2 ^ k) = some k := by
  have hpos : (0 : ℕ) < 2 ^ k := by positivity
  simp [log2Strict, natLog2_pow, hpos.ne']

theorem headD_map_range {β : Type} (f : ℕ → β) (d : β) (n : ℕ) (hn : 0 < n) :
    ((List.range n).map f).headD d = f 0 := by
  obtain ⟨m, rfl⟩ : ∃ m, n = m + 1 := ⟨n - 1, by omega⟩
  rw [List.range_succ_eq_map]
  simp

theorem foldl_sum_vecs_one {EF : Type} [Field EF] (rows : List (List EF)) :
    ∀ a : EF, rows.foldl (sum_vecs 1) [a] = [a + (rows.map (fun r => r.getD 0 0)).sum] := by
  induction rows with
  | nil => intro a; simp
  | cons r rest ih =>
    intro a
    have hstep : sum_vecs 1 [a] r = [a + r.getD 0 0] := by
      have hr1 : List.range 1 = [0] := rfl
      simp only [sum_vecs, hr1, List.map_cons, List.map_nil, List.getD_cons_zero]
    rw [List.foldl_cons, hstep, ih, List.map_cons, List.sum_cons, add_assoc]

theorem isPrimitiveRoot_of_pow {M : Type} [CommMonoid M] (z : M) (n : ℕ) (hn : 0 < n)
    (h1 : z ^ n = 1) (h2 : ∀ l, 0 < l → l < n → z ^ l ≠ 1) : IsPrimitiveRoot z n := by
  refine ⟨h1, fun l hl => ?_⟩
  have hd : n * (l / n) + l % n = l := Nat.div_add_mod l n
  have hzn : z ^ (n * (l / n)) = 1 := by rw [pow_mul, h1, one_pow]
  have hmod : z ^ (l % n) = 1 := by
    have hstep : z ^ (n * (l / n)) * z ^ (l % n) = 1 := by rw [← pow_add, hd]; exact hl
    rwa [hzn, one_mul] at hstep
  rcases Nat.eq_zero_or_pos (l % n) with h0 | hpos
  · exact Nat.dvd_of_mod_eq_zero h0
  · exact absurd hmod (h2 _ hpos (Nat.mod_lt _ hn))

theorem interpolate_coset_eval_width1 {F EF : Type} [Field F] [Field EF] [Algebra F EF]
    (tag : ℕ → F) (k : ℕ) (s : F) (z : EF) (e : ℕ → F) :
    interpolate_coset tag ((List.range (2 ^ k)).map (fun i => [e i])) s z
      = some [(z ^ 2 ^ k - algebraMap F EF s ^ 2 ^ k)
          * algebraMap F EF (((2 ^ k : ℕ) : F) * s ^ (2 ^ k - 1))⁻¹
          * ∑ i ∈ Finset.range (2 ^ k),
              (z - algebraMap F EF (s * tag k ^ i))⁻¹ * algebraMap F EF (tag k ^ i)
                * algebraMap F EF (e i)] := by
  have hpos : 0 < 2 ^ k := by positivity
  simp only [interpolate_coset, List.length_map, List.length_range, log2Strict_pow]
  rw [headD_map_range _ _ _ hpos]
  have hlen1 : ([e 0] : List F).length = 1 := rfl
  rw [hlen1]
  have hDI : ∀ i < 2 ^ k,
      (List.map (fun d => d⁻¹)
          (List.map (fun i => z - algebraMap F EF (s * tag k ^ i)) (List.range (2 ^ k)))).getD i 0
        = (z - algebraMap F EF (s * tag k ^ i))⁻¹ := by
    intro i hi
    rw [List.map_map, getD_map_range 0 _ _ i hi]
    rfl
  have hrows :
      List.map
        (fun i =>
          List.map
            (fun y =>
              (List.map (fun d => d⁻¹)
                    (List.map (fun i => z - algebraMap F EF (s * tag k ^ i))
                      (List.range (2 ^ k)))).getD i 0
                * algebraMap F EF (tag k ^ i) * algebraMap F EF y)
            ((List.map (fun i => [e i]) (List.range (2 ^ k))).getD i []))
        (List.range (2 ^ k))
      = List.map
          (fun i => [(z - algebraMap F EF (s * tag k ^ i))⁻¹ * algebraMap F EF (tag k ^ i)
            * algebraMap F EF (e i)])
          (List.range (2 ^ k)) := by
    apply List.map_congr_left
    intro i hi
    rw [List.mem_range] at hi
    rw [getD_map_range [] _ _ i hi, List.map_cons, List.map_nil, hDI i hi]
  rw [hrows]
  have hrep : List.replicate 1 (0 : EF) = [0] := rfl
  rw [hrep, foldl_sum_vecs_one, List.map_map]
  have hget :
      List.map
        ((fun r => List.getD r 0 0) ∘ fun i =>
          [(z - algebraMap F EF (s * tag k ^ i))⁻¹ * algebraMap F EF (tag k ^ i)
            * algebraMap F EF (e i)])
        (List.range (2 ^ k))
      = List.map
          (fun i => (z - algebraMap F EF (s * tag k ^ i))⁻¹ * algebraMap F EF (tag k ^ i)
            * algebraMap F EF (e i))
          (List.range (2 ^ k)) := by
    apply List.map_congr_left
    intro i _
    simp [List.getD_cons_zero]
  rw [hget, list_sum_map_range, zero_add, List.map_cons, List.map_nil]

/-- C8: For every polynomial `p` of degree less than the coset size `2^k`,
given its evaluations on the coset `s * <g>` (where `g = tag k` has order
exactly `2^k` and `s ≠ 0`), `interpolate_coset` at any target point `z`
outside the coset returns exactly the value of `p` at `z`: it weights row
`i` by `g^i / (z − s·g^i)`, sums the weighted rows, and scales by
`zerofier(z) · (height · s^(height−1))⁻¹`, and this is exact polynomial
evaluation, not an approximation. -/
theorem interpolate_coset_exact {F EF : Type} [Field F] [Field EF] [Algebra F EF]
    (tag : ℕ → F) (k : ℕ) (s : F) (z : EF) (p : Polynomial F)
    (hg1 : tag k ^ 2 ^ k = 1)
    (hgprim : ∀ l < 2 ^ k, 0 < l → tag k ^ l ≠ 1)
    (hs : s ≠ 0)
    (hdeg : p.degree < (2 ^ k : ℕ))
    (hz : ∀ i < 2 ^ k, z ≠ algebraMap F EF (s * tag k ^ i)) :
    interpolate_coset tag
        ((List.range (2 ^ k)).map (fun i => [p.eval (s * tag k ^ i)])) s z
      = some [(p.map (algebraMap F EF)).eval z] := by
  rw [interpolate_coset_eval_width1]
  refine congrArg (fun x => some [x]) ?_
  have hhpos : 0 < 2 ^ k := by positivity
  have finj : Function.Injective (algebraMap F EF) := (algebraMap F EF).injective
  set G : EF := algebraMap F EF (tag k) with hG
  set S : EF := algebraMap F EF s with hS
  set q : Polynomial EF := p.map (algebraMap F EF) with hq
  set v : ℕ → EF := fun i => S * G ^ i with hv
  have hSne : S ≠ 0 := by rw [hS]; exact (map_ne_zero (algebraMap F EF)).mpr hs
  have hG1 : G ^ 2 ^ k = 1 := by rw [hG, ← map_pow, hg1, map_one]
  have hGprim : IsPrimitiveRoot G (2 ^ k) := by
    refine isPrimitiveRoot_of_pow G (2 ^ k) hhpos hG1 ?_
    intro l hl0 hlk hGl
    refine hgprim l hlk hl0 (finj ?_)
    rw [map_pow, ← hG, map_one]
    exact hGl
  have hvmap : ∀ i : ℕ, v i = algebraMap F EF (s * tag k ^ i) := by
    intro i
    simp only [hv, hG, hS, map_mul, map_pow]
  have hinj : Set.InjOn v (Finset.range (2 ^ k)) := by
    intro a ha b hb hab
    simp only [Finset.coe_range, Set.mem_Iio] at ha hb
    have hab2 : S * G ^ a = S * G ^ b := by
      have h1 := hab
      simp only [hv] at h1
      exact h1
    exact hGprim.pow_inj ha hb (mul_left_cancel₀ hSne hab2)
  have hqdeg : q.degree < (Finset.range (2 ^ k)).card := by
    rw [Finset.card_range, hq]
    exact lt_of_le_of_lt Polynomial.degree_map_le hdeg
  have hqnode : ∀ i : ℕ, q.eval (v i) = algebraMap F EF (p.eval (s * tag k ^ i)) := by
    intro i
    rw [hvmap i, hq, Polynomial.eval_map, Polynomial.eval₂_at_apply]
  have hxne : ∀ i ∈ Finset.range (2 ^ k), z ≠ v i := by
    intro i hi
    rw [Finset.mem_range] at hi
    rw [hvmap i]
    exact hz i hi
  have hnodal : Lagrange.nodal (Finset.range (2 ^ k)) v
      = Polynomial.X ^ 2 ^ k - Polynomial.C (S ^ 2 ^ k) := by
    have hprod := X_pow_sub_C_eq_prod hGprim hhpos (rfl : S ^ 2 ^ k = S ^ 2 ^ k)
    rw [Lagrange.nodal_eq, hprod]
    refine Finset.prod_congr rfl fun i _ => ?_
    simp only [hv]
    rw [mul_comm S (G ^ i)]
  have hderiv : Polynomial.derivative (Lagrange.nodal (Finset.range (2 ^ k)) v)
      = Polynomial.C ((2 ^ k : ℕ) : EF) * Polynomial.X ^ (2 ^ k - 1) := by
    rw [hnodal, Polynomial.derivative_sub, Polynomial.derivative_C,
      Polynomial.derivative_X_pow, sub_zero]
  have hweight : ∀ i ∈ Finset.range (2 ^ k),
      Lagrange.nodalWeight (Finset.range (2 ^ k)) v i
        = G ^ i * (((2 ^ k : ℕ) : EF) * S ^ (2 ^ k - 1))⁻¹ := by
    intro i hi
    rw [Lagrange.nodalWeight_eq_eval_nodal_derative hi, hderiv,
      Polynomial.eval_mul, Polynomial.eval_C, Polynomial.eval_pow, Polynomial.eval_X]
    have hGi : (G ^ i) ^ (2 ^ k - 1) = (G ^ i)⁻¹ := by
      have h1 : (G ^ i) ^ 2 ^ k = 1 := by
        rw [← pow_mul, mul_comm, pow_mul, hG1, one_pow]
      have h2 : G ^ i * (G ^ i) ^ (2 ^ k - 1) = 1 := by
        rw [← pow_succ', Nat.sub_add_cancel hhpos]
        exact h1
      exact eq_inv_of_mul_eq_one_right h2
    simp only [hv]
    rw [mul_pow, hGi, mul_inv, mul_inv, mul_inv, inv_inv]
    ring
  have hinterp := Lagrange.eq_interpolate hinj hqdeg
  have heval := Lagrange.eval_interpolate_not_at_node (x := z) (fun i => q.eval (v i)) hxne
  have hmain : q.eval z = (z ^ 2 ^ k - S ^ 2 ^ k) *
      ∑ i ∈ Finset.range (2 ^ k),
        Lagrange.nodalWeight (Finset.range (2 ^ k)) v i * (z - v i)⁻¹ * q.eval (v i) := by
    conv_lhs => rw [hinterp]
    rw [heval, hnodal, Polynomial.eval_sub, Polynomial.eval_pow, Polynomial.eval_X,
      Polynomial.eval_C]
  have hmain2 : q.eval z = (z ^ 2 ^ k - S ^ 2 ^ k)
      * (((2 ^ k : ℕ) : EF) * S ^ (2 ^ k - 1))⁻¹
      * ∑ i ∈ Finset.range (2 ^ k), (z - v i)⁻¹ * G ^ i * q.eval (v i) := by
    have hsums : ∑ i ∈ Finset.range (2 ^ k),
          Lagrange.nodalWeight (Finset.range (2 ^ k)) v i * (z - v i)⁻¹ * q.eval (v i)
        = (((2 ^ k : ℕ) : EF) * S ^ (2 ^ k - 1))⁻¹
          * ∑ i ∈ Finset.range (2 ^ k), (z - v i)⁻¹ * G ^ i * q.eval (v i) := by
      rw [Finset.mul_sum]
      refine Finset.sum_congr rfl fun i hi => ?_
      rw [hweight i hi]
      ring
    rw [hmain, hsums, ← mul_assoc]
  have hden : algebraMap F EF (((2 ^ k : ℕ) : F) * s ^ (2 ^ k - 1))⁻¹
      = (((2 ^ k : ℕ) : EF) * S ^ (2 ^ k - 1))⁻¹ := by
    rw [map_inv₀, map_mul, map_pow, map_natCast, hS]
  have hsum : ∑ i ∈ Finset.range (2 ^ k),
        (z - algebraMap F EF (s * tag k ^ i))⁻¹ * algebraMap F EF (tag k ^ i)
          * algebraMap F EF (p.eval (s * tag k ^ i))
      = ∑ i ∈ Finset.range (2 ^ k), (z - v i)⁻¹ * G ^ i * q.eval (v i) := by
    refine Finset.sum_congr rfl fun i _ => ?_
    rw [← hvmap i, ← hqnode i, map_pow, ← hG]
  rw [hden, hsum]
  exact hmain2.symm

theorem interpolate_coset_exact_witness :
    interpolate_coset (fun _ => (8246 : ZMod 12289))
        ((List.range (2 ^ 3)).map
          (fun i => [Polynomial.eval ((11 : ZMod 12289) * 8246 ^ i)
            (Polynomial.X ^ 2 + Polynomial.C 2 * Polynomial.X + Polynomial.C 3)]))
        11 (100 : ZMod 12289)
      = some [Polynomial.eval (100 : ZMod 12289)
          ((Polynomial.X ^ 2 + Polynomial.C 2 * Polynomial.X + Polynomial.C 3 :
              Polynomial (ZMod 12289)).map (algebraMap (ZMod 12289) (ZMod 12289)))]
    ∧ Polynomial.eval (100 : ZMod 12289)
        ((Polynomial.X ^ 2 + Polynomial.C 2 * Polynomial.X + Polynomial.C 3 :
            Polynomial (ZMod 12289)).map (algebraMap (ZMod 12289) (ZMod 12289)))
      = 10203 :=
  ⟨interpolate_coset_exact (fun _ => (8246 : ZMod 12289)) 3 11 100
      (Polynomial.X ^ 2 + Polynomial.C 2 * Polynomial.X + Polynomial.C 3)
      (by decide) (by decide) (by decide)
      (by
        have h2 : (Polynomial.X ^ 2 + Polynomial.C 2 * Polynomial.X + Polynomial.C 3 :
            Polynomial (ZMod 12289)).degree ≤ 2 := by compute_degree
        exact lt_of_le_of_lt h2 (by decide))
      (by decide),
   by
    rw [Algebra.id.map_eq_id, Polynomial.map_id]
    simp only [Polynomial.eval_add, Polynomial.eval_mul, Polynomial.eval_pow,
      Polynomial.eval_X, Polynomial.eval_C]
    decide⟩

theorem log2Strict_some {n l : ℕ} (h : log2Strict n = some l) : n = 2 ^ l := by
  unfold log2Strict at h
  split at h
  · exact absurd h (by simp)
  · split at h
    · rename_i h2
      cases h
      exact h2.symm
    · exact absurd h (by simp)

theorem mem_zip4 {α β γ δ : Type} (x : α × β × γ × δ) :
    ∀ (as : List α) (bs : List β) (cs : List γ) (ds : List δ),
      x ∈ zip4 as bs cs ds →
        x.1 ∈ as ∧ x.2.1 ∈ bs ∧ x.2.2.1 ∈ cs ∧ x.2.2.2 ∈ ds := by
  intro as
  induction as with
  | nil => intro bs cs ds h; simp [zip4] at h
  | cons a as ih =>
    intro bs cs ds h
    cases bs with
    | nil => simp [zip4] at h
    | cons b bs =>
      cases cs with
      | nil => simp [zip4] at h
      | cons c cs =>
        cases ds with
        | nil => simp [zip4] at h
        | cons d ds =>
          rw [zip4] at h
          rcases List.mem_cons.mp h with h1 | h2
          · subst h1
            exact ⟨List.mem_cons_self _ _, List.mem_cons_self _ _,
              List.mem_cons_self _ _, List.mem_cons_self _ _⟩
          · obtain ⟨h1, h2', h3, h4⟩ := ih bs cs ds h2
            exact ⟨List.mem_cons_of_mem _ h1, List.mem_cons_of_mem _ h2',
              List.mem_cons_of_mem _ h3, List.mem_cons_of_mem _ h4⟩

theorem roPolyLoop_isSome {F EF : Type} [Field F] [Field EF] [Algebra F EF] [DecidableEq EF]
    (alpha : EF) (x : F) (log_height : ℕ) (z : EF)
    (hden : -z + algebraMap F EF x ≠ 0) (h32 : log_height < 32) :
    ∀ (l : List (F × EF)) (st : (Fin 32 → EF) × (Fin 32 → EF)),
      (roPolyLoop alpha x log_height z l st).isSome = true := by
  intro l
  induction l with
  | nil => intro st; rfl
  | cons p rest ih =>
    intro st
    obtain ⟨px, pz⟩ := p
    rw [roPolyLoop, if_neg hden]
    rw [dif_pos h32]
    exact ih _

theorem roPointLoop_isSome {F EF : Type} [Field F] [Field EF] [Algebra F EF] [DecidableEq EF]
    (alpha : EF) (x : F) (log_height : ℕ) (mat_opening : List F) (h32 : log_height < 32) :
    ∀ (l : List (EF × List EF)) (st : (Fin 32 → EF) × (Fin 32 → EF)),
      (∀ p ∈ l, -p.1 + algebraMap F EF x ≠ 0) →
      (roPointLoop alpha x log_height mat_opening l st).isSome = true := by
  intro l
  induction l with
  | nil => intro st _; rfl
  | cons p rest ih =>
    intro st hden
    obtain ⟨z, ps⟩ := p
    have hz : -z + algebraMap F EF x ≠ 0 := hden (z, ps) (List.mem_cons_self _ _)
    have hsome := roPolyLoop_isSome alpha x log_height z hz h32 (mat_opening.zip ps) st
    rw [roPointLoop]
    cases hpl : roPolyLoop alpha x log_height z (mat_opening.zip ps) st with
    | none => rw [hpl] at hsome; simp at hsome
    | some st' =>
      exact ih st' (fun q hq => hden q (List.mem_cons_of_mem _ hq))

theorem roMatLoop_isSome {F EF : Type} [Field F] [Field EF] [Algebra F EF] [DecidableEq EF]
    (log_blowup : ℕ) (gen : F) (tag : ℕ → F) (alpha : EF)
    (log_global_max_height index : ℕ) :
    ∀ (ml : List (List F × DimensionsS × List EF × List (List EF)))
      (st : (Fin 32 → EF) × (Fin 32 → EF)),
      (∀ m ∈ ml,
        (∃ l, log2Strict m.2.1.height = some l ∧ l + log_blowup ≤ log_global_max_height ∧
          l + log_blowup < 32) ∧
        (∀ z ∈ m.2.2.1, ∀ lh r : ℕ, -z + algebraMap F EF (gen * tag lh ^ r) ≠ 0)) →
      (roMatLoop log_blowup gen tag alpha log_global_max_height index ml st).isSome
        = true := by
  intro ml
  induction ml with
  | nil => intro st _; rfl
  | cons m rest ih =>
    intro st hm
    obtain ⟨mat_opening, mat_dims, mat_points, mat_at_z⟩ := m
    obtain ⟨⟨l, hls, hle, hl32⟩, hden⟩ := hm _ (List.mem_cons_self _ _)
    rw [roMatLoop]
    simp only [hls]
    rw [if_pos hle]
    have hz : ∀ p ∈ mat_points.zip mat_at_z,
        -p.1 + algebraMap F EF
          (gen * tag (l + log_blowup)
            ^ reverseBitsLen (index >>> (log_global_max_height - (l + log_blowup)))
              (l + log_blowup)) ≠ 0 := by
      intro p hp
      exact hden p.1 (List.of_mem_zip hp).1 _ _
    have hsome := roPointLoop_isSome alpha
      (gen * tag (l + log_blowup)
        ^ reverseBitsLen (index >>> (log_global_max_height - (l + log_blowup)))
          (l + log_blowup))
      (l + log_blowup) mat_opening hl32 (mat_points.zip mat_at_z) st hz
    cases hpl : roPointLoop alpha
        (gen * tag (l + log_blowup)
          ^ reverseBitsLen (index >>> (log_global_max_height - (l + log_blowup)))
            (l + log_blowup))
        (l + log_blowup) mat_opening (mat_points.zip mat_at_z) st with
    | none => rw [hpl] at hsome; simp at hsome
    | some st' =>
      exact ih st' (fun q hq => hm q (List.mem_cons_of_mem _ hq))

theorem roBatchLoop_isSome {F EF Cm CmPf EMmcs : Type} [Field F] [Field EF] [Algebra F EF]
    [DecidableEq EF]
    (log_blowup : ℕ) (gen : F) (tag : ℕ → F)
    (verifyBatch : Cm → List DimensionsS → ℕ → List (List F) → CmPf → Except EMmcs Unit)
    (alpha : EF) (log_global_max_height index : ℕ) :
    ∀ (bl : List (BatchOpeningE F CmPf × List DimensionsS × (Cm × List (List EF))
        × List (List (List EF))))
      (st : (Fin 32 → EF) × (Fin 32 → EF)),
      (∀ b ∈ bl, b.2.1 ≠ [] ∧
        (∀ d ∈ b.2.1, ∃ l, log2Strict d.height = some l ∧
          l + log_blowup ≤ log_global_max_height ∧ l + log_blowup < 32) ∧
        (∀ pts ∈ b.2.2.1.2, ∀ z ∈ pts, ∀ lh r : ℕ,
          -z + algebraMap F EF (gen * tag lh ^ r) ≠ 0)) →
      (roBatchLoop log_blowup gen tag verifyBatch alpha log_global_max_height index bl
        st).isSome = true := by
  intro bl
  induction bl with
  | nil => intro st _; rfl
  | cons b rest ih =>
    intro st hb
    obtain ⟨bo, bdims, cps, bvals⟩ := b
    obtain ⟨hne, hdl, hden⟩ := hb _ (List.mem_cons_self _ _)
    have hmapne : bdims.map (fun d => d.height <<< log_blowup) ≠ [] := by
      simp only [ne_eq, List.map_eq_nil_iff]
      exact hne
    obtain ⟨m, hmax⟩ : ∃ m, (bdims.map (fun d => d.height <<< log_blowup)).max? = some m := by
      cases hmx : (bdims.map (fun d => d.height <<< log_blowup)).max? with
      | none => exact absurd (List.max?_eq_none_iff.mp hmx) hmapne
      | some m => exact ⟨m, rfl⟩
    have hmem : m ∈ bdims.map (fun d => d.height <<< log_blowup) :=
      List.max?_mem (fun a b => max_choice a b) hmax
    obtain ⟨d, hd, hdm⟩ := List.mem_map.mp hmem
    obtain ⟨l, hls, hle, hl32⟩ := hdl d hd
    have hm2 : m = 2 ^ (l + log_blowup) := by
      rw [← hdm, Nat.shiftLeft_eq, log2Strict_some hls, pow_add]
    have hlog : log2Strict m = some (l + log_blowup) := by
      rw [hm2]; exact log2Strict_pow _
    rw [roBatchLoop]
    simp only [hmax, hlog]
    rw [if_pos hle]
    have hmat : ∀ q ∈ zip4 bo.opened_values bdims cps.2 bvals,
        (∃ l, log2Strict q.2.1.height = some l ∧ l + log_blowup ≤ log_global_max_height ∧
          l + log_blowup < 32) ∧
        (∀ z ∈ q.2.2.1, ∀ lh r : ℕ, -z + algebraMap F EF (gen * tag lh ^ r) ≠ 0) := by
      intro q hq
      obtain ⟨_, hq2, hq3, _⟩ := mem_zip4 q _ _ _ _ hq
      exact ⟨hdl q.2.1 hq2, fun z hz lh r => hden q.2.2.1 hq3 z hz lh r⟩
    cases hvb : verifyBatch cps.1 bdims
        (index >>> (log_global_max_height - (l + log_blowup)))
        bo.opened_values bo.opening_proof with
    | error e => simp only [hvb]; rfl
    | ok u =>
      simp only [hvb]
      have hsome := roMatLoop_isSome log_blowup gen tag alpha log_global_max_height index
        (zip4 bo.opened_values bdims cps.2 bvals) st hmat
      cases hml : roMatLoop log_blowup gen tag alpha log_global_max_height index
          (zip4 bo.opened_values bdims cps.2 bvals) st with
      | none => rw [hml] at hsome; simp at hsome
      | some st' =>
        simp only [hml]
        exact ih st' (fun q hq => hb q (List.mem_cons_of_mem _ hq))

theorem roQueryLoop_isSome {F EF Cm CmPf EMmcs : Type} [Field F] [Field EF] [Algebra F EF]
    [DecidableEq EF]
    (log_blowup : ℕ) (gen : F) (tag : ℕ → F)
    (verifyBatch : Cm → List DimensionsS → ℕ → List (List F) → CmPf → Except EMmcs Unit)
    (alpha : EF) (log_global_max_height : ℕ)
    (dims : List (List DimensionsS))
    (commits_and_points : List (Cm × List (List EF)))
    (values : List (List (List (List EF))))
    (hdims : ∀ b ∈ dims, b ≠ [] ∧ ∀ d ∈ b, ∃ l, log2Strict d.height = some l ∧
      l + log_blowup ≤ log_global_max_height ∧ l + log_blowup < 32)
    (hden : ∀ cp ∈ commits_and_points, ∀ pts ∈ cp.2, ∀ z ∈ pts, ∀ lh r : ℕ,
      -z + algebraMap F EF (gen * tag lh ^ r) ≠ 0) :
    ∀ ql : List (List (BatchOpeningE F CmPf) × ℕ),
      (roQueryLoop log_blowup gen tag verifyBatch alpha log_global_max_height
        dims commits_and_points values ql).isSome = true := by
  intro ql
  induction ql with
  | nil => rfl
  | cons q rest ih =>
    obtain ⟨qo, index⟩ := q
    have hb : ∀ b ∈ zip4 qo dims commits_and_points values, b.2.1 ≠ [] ∧
        (∀ d ∈ b.2.1, ∃ l, log2Strict d.height = some l ∧
          l + log_blowup ≤ log_global_max_height ∧ l + log_blowup < 32) ∧
        (∀ pts ∈ b.2.2.1.2, ∀ z ∈ pts, ∀ lh r : ℕ,
          -z + algebraMap F EF (gen * tag lh ^ r) ≠ 0) := by
      intro b hbm
      obtain ⟨_, h2, h3, _⟩ := mem_zip4 b _ _ _ _ hbm
      obtain ⟨hne, hdl⟩ := hdims b.2.1 h2
      exact ⟨hne, hdl, fun pts hpts z hz lh r => hden b.2.2.1 h3 pts hpts z hz lh r⟩
    have hsome := roBatchLoop_isSome log_blowup gen tag verifyBatch alpha
      log_global_max_height index (zip4 qo dims commits_and_points values)
      (fun _ => 0, fun _ => 1) hb
    rw [roQueryLoop]
    cases hbl : roBatchLoop log_blowup gen tag verifyBatch alpha log_global_max_height
        index (zip4 qo dims commits_and_points values) (fun _ => 0, fun _ => 1) with
    | none => rw [hbl] at hsome; simp at hsome
    | some res =>
      cases res with
      | error e => rfl
      | ok st' =>
        obtain ⟨ro, ap⟩ := st'
        cases hrec : roQueryLoop log_blowup gen tag verifyBatch alpha
            log_global_max_height dims commits_and_points values rest with
        | none => rw [hrec] at ih; simp at ih
        | some r2 =>
          cases r2 with
          | error e => rfl
          | ok ros => rfl

/-- C1 (amended): for every proof value, commitment/point/dimension list and
challenger state such that (i) every dimensions batch is non-empty, (ii) every
matrix height is a power of two whose blown-up log-height is at most the
global maximum height and below the hard bound `32`, and (iii) no opening
point coincides with any coset evaluation point, `verify_multi_batches`
returns a typed result — `Ok(())` or a `VerificationError` (`InputMmcsError`
or `FriError`) — and never panics.  Without (i) it panics
(`.expect("Empty batch?")`, two_adic_pcs.rs line 420): see the
counterexample. -/
theorem verify_multi_batches_no_panic {F EF Cm Pf CmPf Wit St EMmcs EFri : Type}
    [Field F] [Field EF] [Algebra F EF] [DecidableEq EF]
    (log_blowup : ℕ) (gen : F) (tag : ℕ → F)
    (caps : PcsVerifierCaps F EF Cm Pf CmPf Wit St EMmcs EFri)
    (commits_and_points : List (Cm × List (List EF)))
    (dims : List (List DimensionsS))
    (values : List (List (List (List EF))))
    (proof : TwoAdicFriPcsProofE F EF Cm Pf CmPf Wit)
    (challenger : St)
    (hdims : ∀ b ∈ dims, b ≠ [] ∧ ∀ d ∈ b, (log2Strict d.height).isSome = true ∧
      (log2Strict d.height).getD 0 + log_blowup
        ≤ proof.fri_proof.commit_phase_commits.length + log_blowup ∧
      (log2Strict d.height).getD 0 + log_blowup < 32)
    (hden : ∀ cp ∈ commits_and_points, ∀ pts ∈ cp.2, ∀ z ∈ pts, ∀ lh r : ℕ,
      -z + algebraMap F EF (gen * tag lh ^ r) ≠ 0) :
    (verify_multi_batches log_blowup gen tag caps commits_and_points dims values proof
      challenger).isSome = true := by
  rw [verify_multi_batches]
  cases hvs : caps.verifyShape proof.fri_proof (caps.sampleAlpha challenger).2 with
  | error e => simp [hvs]
  | ok res =>
    simp only [hvs]
    obtain ⟨fch, st2⟩ := res
    have hdims' : ∀ b ∈ dims, b ≠ [] ∧ ∀ d ∈ b, ∃ l, log2Strict d.height = some l ∧
        l + log_blowup ≤ proof.fri_proof.commit_phase_commits.length + log_blowup ∧
        l + log_blowup < 32 := by
      intro b hbm
      obtain ⟨hne, hd⟩ := hdims b hbm
      refine ⟨hne, fun d hdm => ?_⟩
      obtain ⟨hsm, h1, h2⟩ := hd d hdm
      obtain ⟨l, hl⟩ := Option.isSome_iff_exists.mp hsm
      rw [hl] at h1 h2
      exact ⟨l, hl, by simpa using h1, by simpa using h2⟩
    have hsome := roQueryLoop_isSome log_blowup gen tag caps.verifyBatch
      (caps.sampleAlpha challenger).1
      (proof.fri_proof.commit_phase_commits.length + log_blowup)
      dims commits_and_points values hdims' hden
      (proof.query_openings.zip fch.query_indices)
    cases hql : roQueryLoop log_blowup gen tag caps.verifyBatch
        (caps.sampleAlpha challenger).1
        (proof.fri_proof.commit_phase_commits.length + log_blowup)
        dims commits_and_points values
        (proof.query_openings.zip fch.query_indices) with
    | none => rw [hql] at hsome; simp at hsome
    | some r =>
      simp only [hql]
      cases r with
      | error e => rfl
      | ok ros =>
        cases hvc : caps.verifyChallenges proof.fri_proof fch ros with
        | error e => simp [hvc]
        | ok u => simp [hvc]

/-- Counterexample to C1 as stated: a well-typed input whose dimension list
contains an empty batch makes `verify_multi_batches` panic — the
`.max().expect("Empty batch?")` at two_adic_pcs.rs line 420 — rather than
return a typed error: with one query opening and `dims = [[]]` the model
returns `none` (panic), not an `Except`. -/
theorem verify_multi_batches_panics_counterexample :
    verify_multi_batches 0 (3 : ZMod 17) (fun _ => 4) pcsCaps17
      [((), [])] [[]] [[]]
      ⟨⟨[()], [], 0, ()⟩, [[⟨[[]], ()⟩]]⟩ () = none := rfl

theorem verify_multi_batches_no_panic_witness :
    ((∀ b ∈ [[(⟨1, 2⟩ : DimensionsS)]], b ≠ [] ∧ ∀ d ∈ b,
        (log2Strict d.height).isSome = true ∧
        (log2Strict d.height).getD 0 + 0
          ≤ (⟨⟨[()], [], (0 : ZMod 17), ()⟩,
              [[⟨[[3, 4]], ()⟩]]⟩ :
              TwoAdicFriPcsProofE (ZMod 17) (ZMod 17) Unit Unit Unit
                Unit).fri_proof.commit_phase_commits.length + 0 ∧
        (log2Strict d.height).getD 0 + 0 < 32)
      ∧ (verify_multi_batches 0 (3 : ZMod 17) (fun _ => 4) pcsCaps17
          [((), [])] [[(⟨1, 2⟩ : DimensionsS)]] [[]]
          ⟨⟨[()], [], 0, ()⟩, [[⟨[[3, 4]], ()⟩]]⟩ ()).isSome = true) :=
  ⟨by decide,
   verify_multi_batches_no_panic 0 (3 : ZMod 17) (fun _ => 4) pcsCaps17
     [((), [])] [[(⟨1, 2⟩ : DimensionsS)]] [[]]
     ⟨⟨[()], [], 0, ()⟩, [[⟨[[3, 4]], ()⟩]]⟩ ()
     (by decide)
     (by
       intro cp hcp pts hpts z hz lh r
       rw [List.mem_singleton] at hcp
       subst hcp
       simp at hpts)⟩
